import Mathlib

/- Verification development for the hebbot news-aggregation core.

   The definitions below are a shallow embedding of the Rust sources:
   src/news.rs, src/news_store.rs, src/config.rs, src/section.rs,
   src/project.rs, src/utils.rs, src/render.rs and src/bot.rs.

   Modelling conventions:
   - a Rust String is a list of characters (byte lengths are computed from
     the characters' utf8 sizes where the source uses String::len);
   - Matrix event ids are opaque natural numbers;
   - std HashMap is an association list whose insert replaces the value in
     place when the key is present and appends otherwise; BTreeMap iteration
     sorts entries by key before folding;
   - RefCell interior mutability becomes functional record update;
   - a Rust panic (unwrap of None) makes the modelled function return none;
   - format! message templates are modelled as symbolic constructors applied
     to the interpolated values. -/

/-- Characters of a Rust string. -/
abbrev Str : Type := List Char

/-- Opaque model of a Matrix event id. -/
abbrev EvId : Type := Nat

/-- Model of a well-formed mxc content uri (OwnedMxcUri): homeserver name plus
media id, so that OwnedMxcUri::media_id is total. -/
structure MxcUri where
  server : Str
  mediaId : Str
deriving DecidableEq

/-- Utf8 byte length of a Rust string, as used by String::len. -/
def byteLen (s : Str) : Nat := (s.map Char.utf8Size).sum

/-- Model of chrono DateTime at second precision: a day number and the second
of the day. DateTime::time() projects to the second of the day. -/
structure Timestamp where
  day : Int
  tod : Int
deriving DecidableEq

/-- Seconds between two instants when both date and time are taken into
account (the metric the specification describes for nearest-News matching). -/
def full_diff_secs (a b : Timestamp) : Int :=
  |(a.day * 86400 + a.tod) - (b.day * 86400 + b.tod)|

/-- Model of (a.time() - b.time()).num_seconds().abs() from
NewsStore::find_related_news: only the time of day is compared. -/
def time_diff_secs (a b : Timestamp) : Int := |a.tod - b.tod|

/-- HashMap::insert - replace the value in place when the key is present,
append a new entry otherwise. -/
def insertAL {α β : Type} [DecidableEq α] : List (α × β) → α → β → List (α × β)
  | [], k, v => [(k, v)]
  | (a, b) :: t, k, v => if a = k then (k, v) :: t else (a, b) :: insertAL t k v

/-- HashMap::get. -/
def lookupAL {α β : Type} [DecidableEq α] : List (α × β) → α → Option β
  | [], _ => none
  | (a, b) :: t, k => if a = k then some b else lookupAL t k

/-- HashMap::remove - the removed value, if any, and the remaining entries. -/
def removeAL {α β : Type} [DecidableEq α] : List (α × β) → α → Option β × List (α × β)
  | [], _ => (none, [])
  | (a, b) :: t, k =>
    if a = k then (some b, t)
    else ((removeAL t k).1, (a, b) :: (removeAL t k).2)

/-- Lexicographic order on strings by character code, as Rust's Ord for String. -/
def strLe : Str → Str → Bool
  | [], _ => true
  | _ :: _, [] => false
  | a :: s, b :: t => if a = b then strLe s t else decide (a < b)

/-- Insertion step of Vec::sort on strings. -/
def insortStr (x : Str) : List Str → List Str
  | [] => [x]
  | y :: t => if strLe x y then x :: y :: t else y :: insortStr x t

/-- Vec::sort on strings, modelled as insertion sort. -/
def sortStr : List Str → List Str
  | [] => []
  | x :: t => insortStr x (sortStr t)

/-- Vec::dedup - remove consecutive duplicates. -/
def dedupAdj : List Str → List Str
  | [] => []
  | [x] => [x]
  | x :: y :: t => if x = y then dedupAdj (y :: t) else x :: dedupAdj (y :: t)

/-- Model of News (src/news.rs). Tag and media maps are keyed by the reaction
(annotation) event id; a media value is (file event id, filename, mxc uri). -/
structure News where
  event_id : EvId
  reporter_id : Str
  reporter_display_name : Str
  timestamp : Timestamp
  message : Str
  section_names : List (EvId × Str)
  project_names : List (EvId × Str)
  images : List (EvId × (EvId × Str × MxcUri))
  videos : List (EvId × (EvId × Str × MxcUri))
deriving DecidableEq

/-- News::is_assigned. -/
def News.is_assigned (n : News) : Bool :=
  !n.project_names.isEmpty || !n.section_names.isEmpty

/-- News::section_names() - the distinct stored section names (values of the
map, sorted, consecutive duplicates removed). -/
def News.section_names' (n : News) : List Str :=
  dedupAdj (sortStr (n.section_names.map Prod.snd))

/-- News::add_section_name. -/
def News.add_section_name (n : News) (event_id : EvId) (name : Str) : News :=
  {n with section_names := insertAL n.section_names event_id name}

/-- News::project_names() - the distinct stored project names. -/
def News.project_names' (n : News) : List Str :=
  dedupAdj (sortStr (n.project_names.map Prod.snd))

/-- News::add_project_name. -/
def News.add_project_name (n : News) (event_id : EvId) (name : Str) : News :=
  {n with project_names := insertAL n.project_names event_id name}

/-- News::add_image. -/
def News.add_image (n : News) (reaction_event_id image_event_id : EvId)
    (filename : Str) (mxc_uri : MxcUri) : News :=
  {n with images := insertAL n.images reaction_event_id (image_event_id, filename, mxc_uri)}

/-- News::add_video. -/
def News.add_video (n : News) (reaction_event_id video_event_id : EvId)
    (filename : Str) (mxc_uri : MxcUri) : News :=
  {n with videos := insertAL n.videos reaction_event_id (video_event_id, filename, mxc_uri)}

/-- News::deduplicate_files - deduplicate media entries by mxc uri; the kept
display name is the media id followed by an underscore and the filename. -/
def News.deduplicate_files (files : List (EvId × (EvId × Str × MxcUri))) :
    List (Str × MxcUri) :=
  (files.foldl
    (fun acc kv =>
      let mxc_uri := kv.2.2.2
      let unique_name := mxc_uri.mediaId ++ '_' :: kv.2.2.1
      insertAL acc mxc_uri (unique_name, mxc_uri))
    []).map Prod.snd

/-- News::images() - the deduplicated image list. -/
def News.images' (n : News) : List (Str × MxcUri) :=
  News.deduplicate_files n.images

/-- News::videos() - the deduplicated video list. -/
def News.videos' (n : News) : List (Str × MxcUri) :=
  News.deduplicate_files n.videos

/-- News::message_summary - truncate messages longer than 60 bytes to their
first 50 characters followed by an ellipsis. -/
def News.message_summary (n : News) : Str :=
  if byteLen n.message > 60 then n.message.take 50 ++ [' ', '…'] else n.message

/-- Model of Section (src/section.rs). -/
structure Section where
  emoji : Str
  name : Str
  title : Str
  order : Nat
  usual_reporters : List Str
deriving DecidableEq

/-- Model of Project (src/project.rs). -/
structure Project where
  emoji : Str
  name : Str
  title : Str
  description : Str
  website : Str
  default_section : Str
deriving DecidableEq

/-- Model of ReactionType (src/reaction_type.rs). -/
inductive ReactionType where
  | Approval
  | Section (s : Option Section)
  | Project (p : Option Project)
  | Image
  | Video
  | None
  | Notice
deriving DecidableEq

/-- Variation selector 16, the codepoint stripped by utils::emoji_cmp. -/
def vs16 : Char := Char.ofNat 0xFE0F

/-- Model of utils::emoji_cmp - both strings have every U+FE0F removed
(str::replace with an empty replacement) and are then compared exactly. -/
def emoji_cmp (a b : Str) : Bool :=
  (a.filter (fun c => c != vs16)) == (b.filter (fun c => c != vs16))

/-- Model of project::deserialize_emoji - config loading appends a question
mark to every project emoji. -/
def deserialize_emoji (s : Str) : Str := s ++ ['?']

/-- Model of Config (src/config.rs). Fields that none of the modelled
operations read (room ids, verbs, the update command) are omitted. -/
structure Config where
  bot_user_id : Str
  notice_emoji : Str
  restrict_notice : Bool
  min_length : Nat
  ack_text : Str
  editors : List Str
  sections : List Section
  projects : List Project
deriving DecidableEq

/-- Config::section_by_name - first section with the given name. -/
def Config.section_by_name (c : Config) (name : Str) : Option Section :=
  c.sections.find? (fun s => s.name = name)

/-- Config::project_by_name - first project with the given name. -/
def Config.project_by_name (c : Config) (name : Str) : Option Project :=
  c.projects.find? (fun p => p.name = name)

/-- Config::reaction_type_by_emoji - compare against the notice emoji, then
each section emoji in order, then each project emoji in order; the first
match decides. -/
def Config.reaction_type_by_emoji (c : Config) (emoji : Str) : ReactionType :=
  if emoji_cmp c.notice_emoji emoji then .Notice
  else
    match c.sections.find? (fun s => emoji_cmp s.emoji emoji) with
    | some s => .Section (some s)
    | none =>
      match c.projects.find? (fun p => emoji_cmp p.emoji emoji) with
      | some p => .Project (some p)
      | none => .None

/-- Config::sections_by_usual_reporter. -/
def Config.sections_by_usual_reporter (c : Config) (reporter : Str) : List Section :=
  c.sections.filter (fun s => s.usual_reporters.contains reporter)

/-- Model of NewsStore (src/news_store.rs); writes counts the synchronous
write_data persistence calls. -/
structure NewsStore where
  news_map : List (EvId × News)
  writes : Nat
deriving DecidableEq

/-- NewsStore::write_data. -/
def NewsStore.write_data (s : NewsStore) : NewsStore :=
  {s with writes := s.writes + 1}

/-- NewsStore::add_news - unconditional insert followed by persistence. -/
def NewsStore.add_news (s : NewsStore) (n : News) : NewsStore :=
  NewsStore.write_data {s with news_map := insertAL s.news_map n.event_id n}

/-- NewsStore::news_by_message_id. -/
def NewsStore.news_by_message_id (s : NewsStore) (event_id : EvId) : Option News :=
  lookupAL s.news_map event_id

/-- Loop of NewsStore::find_related_news: track the shortest time difference
seen so far and the News achieving it; replace only on a strictly smaller
difference. -/
def findRelatedLoop (reporter_id : Str) (ts : Timestamp) :
    List News → Option Int → Option News → Option News
  | [], _, related => related
  | news :: rest, shortest, related =>
    if news.reporter_id ≠ reporter_id then
      findRelatedLoop reporter_id ts rest shortest related
    else
      let d := time_diff_secs news.timestamp ts
      match shortest with
      | none => findRelatedLoop reporter_id ts rest (some d) (some news)
      | some sd =>
        if d < sd then findRelatedLoop reporter_id ts rest (some d) (some news)
        else findRelatedLoop reporter_id ts rest (some sd) related

/-- NewsStore::find_related_news - nearest same-reporter News by time of day. -/
def NewsStore.find_related_news (s : NewsStore) (reporter_id : Str)
    (ts : Timestamp) : Option News :=
  findRelatedLoop reporter_id ts (s.news_map.map Prod.snd) none none

/-- News::remove_reaction_id - remove the annotation id from the section map,
else from the project map, reporting which kind was removed. -/
def News.remove_reaction_id (n : News) (event_id : EvId) : ReactionType × News :=
  match (removeAL n.section_names event_id).1 with
  | some _ => (.Section none, {n with section_names := (removeAL n.section_names event_id).2})
  | none =>
    match (removeAL n.project_names event_id).1 with
    | some _ => (.Project none, {n with project_names := (removeAL n.project_names event_id).2})
    | none => (.None, n)

/-- Outcome classification for Bot::add_news. -/
inductive AddOutcome where
  | duplicate
  | tooShort
  | added
deriving DecidableEq

/-- Symbolic model of the format! message templates produced by the bot;
each constructor carries the values interpolated into the template. A
message link is represented by the linked event id. -/
inductive Msg where
  | cannotResubmit (link : EvId)
  | submitted (reporter_id : Str) (link : EvId)
  | ack (user : Str)
  | tooShort (reporter_display_name : Str)
  | sectionConfirm (sender reporter_id : Str) (link : EvId) (title : Str)
  | projectConfirm (sender : Str) (title : Str) (reporter_id : Str) (link : EvId)
  | unableToProcess (sender : Str) (rt : ReactionType) (link : EvId) (event_id : EvId)
  | imageAdded (reporter_id : Str) (summary : Str) (link : EvId)
  | noMatchingNewsImage (sender : Str) (link : EvId)
  | invalidForImage (emoji : Str) (sender : Str) (link : EvId)
  | videoAdded (reporter_id : Str) (summary : Str) (link : EvId)
  | noMatchingNewsVideo (sender : Str) (link : EvId)
  | invalidForVideo (sender : Str) (link : EvId)
deriving DecidableEq

/-- Result of Bot::add_news: the outcome, the store afterwards, the admin and
reporting room messages, and the suggestion reactions sent (emoji key and
target event id). -/
structure BotAddResult where
  outcome : AddOutcome
  store : NewsStore
  admin_msgs : List Msg
  reporting_msgs : List Msg
  reactions : List (Str × EvId)
deriving DecidableEq

/-- Model of Bot::add_news (src/bot.rs). The mention-stripping function
(utils::remove_bot_name, a regex over the bot identity) and the whole-word
project name matcher (a regex over name and title) are taken as parameters,
because the claims under verification do not depend on their internals. -/
def Bot.add_news (strip : Str → Str) (matchesProject : Project → Str → Bool)
    (cfg : Config) (store : NewsStore) (news : News) (notify_reporter : Bool) :
    BotAddResult :=
  if (store.news_by_message_id news.event_id).isSome then
    ⟨.duplicate, store, [.cannotResubmit news.event_id], [], []⟩
  else
    let news := {news with message := strip news.message}
    if byteLen news.message > cfg.min_length then
      let reporting :=
        if notify_reporter && !cfg.ack_text.isEmpty then
          [Msg.ack news.reporter_display_name]
        else []
      let admin := [Msg.submitted news.reporter_id news.event_id]
      let reactions :=
        (cfg.projects.filter (fun p => matchesProject p news.message)).map
          (fun p => (p.emoji ++ [' ', '?'], news.event_id))
        ++ (cfg.sections_by_usual_reporter news.reporter_id).map
            (fun s => (s.emoji, news.event_id))
      ⟨.added, store.add_news news, admin, reporting, reactions⟩
    else
      ⟨.tooShort, store, [], [.tooShort news.reporter_display_name], []⟩

/-- Model of ruma MediaSource. -/
inductive MediaSource where
  | plain (uri : MxcUri)
  | encrypted
deriving DecidableEq

/-- Message-kind classification of the reacted-to event, as recovered through
related_event.text() / .image() / .video(). -/
inductive MsgContent where
  | text (body : Str)
  | image (body : Str) (source : MediaSource)
  | video (body : Str) (source : MediaSource)
  | other
deriving DecidableEq

/-- Observable data of the reacted-to message event, including its sender's
resolved display name (room.get_member). -/
structure RelatedEvent where
  event_id : EvId
  sender : Str
  sender_display_name : Str
  origin_server_ts : Timestamp
  content : MsgContent
deriving DecidableEq

/-- Observable effects of one reaction event: the store afterwards and the
messages and suggestion reactions sent. -/
structure ReactionOutcome where
  store : NewsStore
  admin_msgs : List Msg
  reporting_msgs : List Msg
  reactions : List (Str × EvId)
deriving DecidableEq

/-- Model of Bot::on_reporting_room_reaction (src/bot.rs). Returns none where
the source would panic. The current wall-clock time (used by News::new) is the
now parameter. -/
def on_reporting_room_reaction (strip : Str → Str)
    (matchesProject : Project → Str → Bool) (cfg : Config) (store : NewsStore)
    (reaction_sender : Str) (reaction_emoji : Str) (reaction_event_id : EvId)
    (related_event : RelatedEvent) (now : Timestamp) : Option ReactionOutcome :=
  let reaction_emoji :=
    if List.isSuffixOf [' ', '?'] reaction_emoji then reaction_emoji.dropLast.dropLast
    else reaction_emoji
  let sender_is_hebbot := reaction_sender == cfg.bot_user_id
  let sender_is_editor := cfg.editors.contains reaction_sender
  if sender_is_hebbot
      || (cfg.restrict_notice && !sender_is_editor
          && !emoji_cmp reaction_emoji cfg.notice_emoji) then
    some ⟨store, [], [], []⟩
  else
    let reaction_type := cfg.reaction_type_by_emoji reaction_emoji
    let related_event_id := related_event.event_id
    if reaction_type = ReactionType.None then some ⟨store, [], [], []⟩
    else
      match related_event.content with
      | .text body =>
        if emoji_cmp reaction_emoji cfg.notice_emoji then
          if !sender_is_editor
              && (decide (reaction_sender ≠ related_event.sender)
                  && cfg.restrict_notice) then
            some ⟨store, [], [], []⟩
          else
            let news : News :=
              ⟨related_event_id, related_event.sender,
               related_event.sender_display_name, now, body, [], [], [], []⟩
            let r := Bot.add_news strip matchesProject cfg store news false
            some ⟨r.store.write_data, r.admin_msgs, r.reporting_msgs, r.reactions⟩
        else
          match store.news_by_message_id related_event_id with
          | some news =>
            match reaction_type with
            | .Section os => do
              let sec ← os
              let news := news.add_section_name reaction_event_id sec.name
              let store :=
                {store with news_map := insertAL store.news_map related_event_id news}
              some ⟨store.write_data,
                [.sectionConfirm reaction_sender news.reporter_id related_event_id sec.title],
                [], []⟩
            | .Project op => do
              let project ← op
              let news := news.add_project_name reaction_event_id project.name
              let store :=
                {store with news_map := insertAL store.news_map related_event_id news}
              some ⟨store.write_data,
                [.projectConfirm reaction_sender project.title news.reporter_id related_event_id],
                [], []⟩
            | _ => some ⟨store.write_data, [], [], []⟩
          | none =>
            some ⟨store.write_data,
              [.unableToProcess reaction_sender reaction_type related_event_id related_event_id],
              [], []⟩
      | .image body source =>
        match reaction_type with
        | .Notice =>
          match store.find_related_news related_event.sender related_event.origin_server_ts with
          | some news =>
            if !sender_is_editor
                && (decide (reaction_sender ≠ related_event.sender)
                    && cfg.restrict_notice) then
              some ⟨store, [], [], []⟩
            else
              match source with
              | .plain mxc_uri =>
                let news := news.add_image reaction_event_id related_event_id body mxc_uri
                let store :=
                  {store with news_map := insertAL store.news_map news.event_id news}
                some ⟨store.write_data,
                  [.imageAdded news.reporter_id news.message_summary related_event_id],
                  [], []⟩
              | .encrypted => some ⟨store.write_data, [], [], []⟩
          | none =>
            some ⟨store.write_data,
              [.noMatchingNewsImage reaction_sender related_event_id], [], []⟩
        | _ =>
          some ⟨store.write_data,
            [.invalidForImage reaction_emoji reaction_sender related_event_id], [], []⟩
      | .video body source =>
        match reaction_type with
        | .Notice =>
          match store.find_related_news related_event.sender related_event.origin_server_ts with
          | some news =>
            match source with
            | .plain mxc_uri =>
              let news := news.add_video reaction_event_id related_event_id body mxc_uri
              let store :=
                {store with news_map := insertAL store.news_map news.event_id news}
              some ⟨store.write_data,
                [.videoAdded news.reporter_id news.message_summary related_event_id],
                [], []⟩
            | .encrypted => some ⟨store.write_data, [], [], []⟩
          | none =>
            some ⟨store.write_data,
              [.noMatchingNewsVideo reaction_sender related_event_id], [], []⟩
        | _ =>
          some ⟨store.write_data,
            [.invalidForVideo reaction_sender related_event_id], [], []⟩
      | .other => some ⟨store.write_data, [], [], []⟩

/-- Model of render::RenderProject. -/
structure RenderProject where
  project : Project
  news : List News
  overwritten_section : Option Str
deriving DecidableEq

/-- Model of render::RenderSection; sect models the source field named
section (a Lean keyword). -/
structure RenderSection where
  sect : Section
  projects : List RenderProject
  news : List News
deriving DecidableEq

/-- Notes produced by the render pipeline, as symbolic format! templates. -/
inductive RNote where
  | overwritten (link : EvId) (reporter_display_name : Str) (section_name : Str)
  | noProject (link : EvId) (reporter_display_name : Str)
  | summary (news_count images videos : Nat)
deriving DecidableEq

/-- Warnings produced by the render pipeline, as symbolic format! templates. -/
inductive RWarn where
  | multipleInfo (link : EvId) (reporter_display_name : Str)
  | noInfo (link : EvId) (reporter_display_name : Str)
  | notAssigned (count : Nat)
deriving DecidableEq

/-- Mutable state of render's news-sorting loop. The render_sections key
models the string "order-name" as the injective pair (order, name); the
project_names field models the HashSet of encountered project names. -/
structure RState where
  render_projects : List (Str × RenderProject)
  render_sections : List ((Nat × Str) × RenderSection)
  news_count : Nat
  not_assigned : Nat
  images : List (Str × MxcUri)
  videos : List (Str × MxcUri)
  warnings : List RWarn
  notes : List RNote
  project_names : List Str
deriving DecidableEq

/-- Initial render state. -/
def initRState : RState := ⟨[], [], 0, 0, [], [], [], [], []⟩

/-- HashSet::insert - append the element when it is not already present. -/
def insertSet (l : List Str) (x : Str) : List Str :=
  if l.contains x then l else l ++ [x]

/-- Inner loop of render over a news entry's section names for one of its
project names: every section differing from the project's default section
gets a note and files the news under the synthetic key name-dash-section,
setting the overwritten flag. -/
def customSectionLoop (news : News) (news_project_name : Str) (project : Project) :
    List Str → Bool → RState → Bool × RState
  | [], overwritten, st => (overwritten, st)
  | section_name :: rest, overwritten, st =>
    if section_name ≠ project.default_section then
      let st :=
        {st with notes :=
          RNote.overwritten news.event_id news.reporter_display_name section_name :: st.notes}
      let key := news_project_name ++ '-' :: section_name
      let st :=
        match lookupAL st.render_projects key with
        | some rp =>
          {st with render_projects :=
            insertAL st.render_projects key {rp with news := news :: rp.news}}
        | none =>
          {st with render_projects :=
            insertAL st.render_projects key ⟨project, [news], some section_name⟩}
      customSectionLoop news news_project_name project rest true st
    else customSectionLoop news news_project_name project rest overwritten st

/-- Loop of render over a news entry's project names; a missing project
configuration is the source's unwrap panic. When no section overrode the
default, the news is filed under the plain project key. -/
def projectLoop (cfg : Config) (news : News) : List Str → RState → Option RState
  | [], st => some st
  | news_project_name :: rest, st =>
    let st := {st with project_names := insertSet st.project_names news_project_name}
    match cfg.project_by_name news_project_name with
    | none => none
    | some project =>
      match customSectionLoop news news_project_name project news.section_names' false st with
      | (overwritten, st) =>
        if overwritten then projectLoop cfg news rest st
        else
          let st :=
            match lookupAL st.render_projects news_project_name with
            | some rp =>
              {st with render_projects :=
                insertAL st.render_projects news_project_name {rp with news := news :: rp.news}}
            | none =>
              {st with render_projects :=
                insertAL st.render_projects news_project_name ⟨project, [news], none⟩}
          projectLoop cfg news rest st

/-- Loop of render filing a project-less news entry directly into the render
section of each of its section names. -/
def directSectionLoop (cfg : Config) (news : News) : List Str → RState → Option RState
  | [], st => some st
  | section_name :: rest, st =>
    match cfg.section_by_name section_name with
    | none => none
    | some sec =>
      let key := (sec.order, section_name)
      let st :=
        match lookupAL st.render_sections key with
        | some rs =>
          {st with render_sections :=
            insertAL st.render_sections key {rs with news := news :: rs.news}}
        | none =>
          {st with render_sections :=
            insertAL st.render_sections key ⟨sec, [], [news]⟩}
      directSectionLoop cfg news rest st

/-- Processing of one news entry by render's first loop (src/render.rs,
the loop sorting news entries into RenderProjects and RenderSections). -/
def processNews (cfg : Config) (st : RState) (news : News) : Option RState :=
  if !news.is_assigned then some {st with not_assigned := st.not_assigned + 1}
  else
    let st :=
      if news.project_names'.length > 1 || news.section_names'.length > 1 then
        {st with warnings :=
          RWarn.multipleInfo news.event_id news.reporter_display_name :: st.warnings}
      else st
    if news.project_names'.isEmpty && news.section_names'.isEmpty then
      some {st with warnings :=
        RWarn.noInfo news.event_id news.reporter_display_name :: st.warnings}
    else
      let st :=
        {st with news_count := st.news_count + 1,
                 images := st.images ++ news.images',
                 videos := st.videos ++ news.videos'}
      do
        let st ←
          if news.project_names'.isEmpty then
            let st :=
              {st with notes :=
                RNote.noProject news.event_id news.reporter_display_name :: st.notes}
            directSectionLoop cfg news news.section_names' st
          else pure st
        projectLoop cfg news news.project_names' st

/-- Ordered insertion by string key (helper modelling BTreeMap iteration). -/
def insortKey {β : Type} (x : Str × β) : List (Str × β) → List (Str × β)
  | [] => [x]
  | y :: t => if strLe x.1 y.1 then x :: y :: t else y :: insortKey x t

/-- Key-ordered view of an association list, modelling that BTreeMap
iteration visits entries in key order. -/
def sortByKey {β : Type} : List (Str × β) → List (Str × β)
  | [] => []
  | x :: t => insortKey x (sortByKey t)

/-- Second render loop: sort every RenderProject into the RenderSection named
by its overwritten section, or by its project's default section otherwise; an
unknown section name is the source's unwrap panic. -/
def placeLoop (cfg : Config) : List (Str × RenderProject) →
    List ((Nat × Str) × RenderSection) → Option (List ((Nat × Str) × RenderSection))
  | [], sections => some sections
  | (_, render_project) :: rest, sections =>
    let section_name :=
      match render_project.overwritten_section with
      | some s => s
      | none => render_project.project.default_section
    match cfg.section_by_name section_name with
    | none => none
    | some sec =>
      let key := (sec.order, section_name)
      let sections :=
        match lookupAL sections key with
        | some rs => insertAL sections key {rs with projects := render_project :: rs.projects}
        | none => insertAL sections key ⟨sec, [render_project], []⟩
      placeLoop cfg rest sections

/-- Result of the modelled part of render: the grouping structure, the
diagnostics, and the media lists to fetch. The markdown templating stages,
which only substitute these data into template strings, are not modelled;
render_projects is kept to state properties about the grouping. -/
structure RenderData where
  render_projects : List (Str × RenderProject)
  render_sections : List ((Nat × Str) × RenderSection)
  news_count : Nat
  not_assigned : Nat
  images : List (Str × MxcUri)
  videos : List (Str × MxcUri)
  warnings : List RWarn
  notes : List RNote
deriving DecidableEq

/-- Model of render (src/render.rs): sort the news into groups, place the
groups into sections, then assemble diagnostics (the aggregate warning for
unassigned entries and the summary note are prepended and the lists are
reversed into reading order, as in the source). -/
def render (cfg : Config) (news_list : List News) : Option RenderData := do
  let st ← news_list.foldlM (processNews cfg) initRState
  let sections ← placeLoop cfg (sortByKey st.render_projects) st.render_sections
  let warnings :=
    if st.not_assigned ≠ 0 then RWarn.notAssigned st.not_assigned :: st.warnings
    else st.warnings
  let notes := RNote.summary st.news_count st.images.length st.videos.length :: st.notes
  some ⟨st.render_projects, sections, st.news_count, st.not_assigned,
        st.images, st.videos, warnings.reverse, notes.reverse⟩

/-- Test fixture: a News with the given id, reporter, timestamp and message
and no tags or media. -/
def plainNews (id : EvId) (rep : Str) (ts : Timestamp) (msg : Str) : News :=
  ⟨id, rep, ['R'], ts, msg, [], [], [], []⟩

/-- Test fixture: a minimal configuration with notice restriction on,
minimum length 10, editor e and no sections or projects. -/
def cfgMin : Config :=
  ⟨['b'], ['n'], true, 10, [], [['e']], [], []⟩

/-- Test fixture: section s with name sec and order 0. -/
def secFix : Section :=
  ⟨['s'], ['s', 'e', 'c'], ['S', 'e', 'c'], 0, []⟩

/-- Test fixture: a configuration with notice restriction off, one editor e
and one section (used against the editor-only tagging claim). -/
def cfgOpen : Config :=
  ⟨['b'], ['n'], false, 10, [], [['e']], [secFix], []⟩

/-- Test fixture: a store holding one News with event id 5. -/
def storeOne : NewsStore :=
  ⟨[(5, plainNews 5 ['r'] ⟨0, 0⟩ ['m'])], 0⟩

/-- Test fixture: the reacted-to text message event of storeOne's News. -/
def relC3 : RelatedEvent :=
  ⟨5, ['r'], ['R'], ⟨0, 0⟩, .text ['m']⟩

/-- Normalization asserted by the classifier claim, written from the
specification's words for comparison with the source: strip the
variant-selector codepoints, then any trailing disambiguation marker. -/
def claimNormalize (e : Str) : Str :=
  let f := e.filter (fun c => c != vs16)
  if f.getLast? = some '?' then f.dropLast else f

/-- Test fixture: a project whose emoji is the raw character c as loaded by
deserialize_emoji (so it carries the trailing marker). -/
def projC5 : Project :=
  ⟨deserialize_emoji ['c'], ['p'], ['P'], [], [], ['u']⟩

/-- Test fixture: a configuration with one project loaded through
deserialize_emoji and no sections. -/
def cfgC5 : Config :=
  ⟨['b'], ['n'], true, 10, [], [['e']], [], [projC5]⟩

/-- Test fixture: one media uri. -/
def uriU : MxcUri := ⟨['s'], ['u']⟩

/-- Test fixture: an assigned News carrying one image with uri uriU. -/
def mediaNewsA : News :=
  ⟨1, ['r'], ['R'], ⟨0, 0⟩, ['m'], [(11, ['s', 'e', 'c'])], [], [(21, (31, ['f'], uriU))], []⟩

/-- Test fixture: a second assigned News carrying an image with the same
uri uriU under different event ids and filename. -/
def mediaNewsB : News :=
  ⟨2, ['r'], ['R'], ⟨0, 0⟩, ['m'], [(12, ['s', 'e', 'c'])], [], [(22, (32, ['g'], uriU))], []⟩

/-- Verification predicate: the keys of the grouping map under which the
news-sorting loop, run on news m over the project names pl, may insert m -
the plain project key when none of m's section names overrides that
project's default section, or a composite project-dash-section key for an
overriding section name. -/
def addKeyFor (cfg : Config) (m : News) (pl : List Str) (k : Str) : Prop :=
  ∃ p' ∈ pl, ∃ proj', cfg.project_by_name p' = some proj' ∧
    ((k = p' ∧ ∀ s' ∈ m.section_names', s' = proj'.default_section) ∨
     (∃ s' ∈ m.section_names', k = p' ++ '-' :: s' ∧ s' ≠ proj'.default_section))

/-- Verification predicate: the shape of a grouping-map entry freshly created
while the news-sorting loop processes news m over project names pl. -/
def createShapeFor (cfg : Config) (m : News) (pl : List Str) (k : Str)
    (rp : RenderProject) : Prop :=
  ∃ p' ∈ pl, cfg.project_by_name p' = some rp.project ∧
    ((k = p' ∧ rp.overwritten_section = none ∧
        ∀ s' ∈ m.section_names', s' = rp.project.default_section) ∨
     (∃ s' ∈ m.section_names', k = p' ++ '-' :: s' ∧
        s' ≠ rp.project.default_section ∧ rp.overwritten_section = some s'))

/-- Test fixture: section u with order 0. -/
def secU6 : Section := ⟨['1'], ['u'], ['U'], 0, []⟩

/-- Test fixture: section y-z (a section whose name contains a dash) with
order 1. -/
def secYZ6 : Section := ⟨['2'], ['y', '-', 'z'], ['Y'], 1, []⟩

/-- Test fixture: section z with order 2. -/
def secZ6 : Section := ⟨['3'], ['z'], ['Z'], 2, []⟩

/-- Test fixture: project x with default section u. -/
def projX6 : Project := ⟨['4'], ['x'], ['X'], [], [], ['u']⟩

/-- Test fixture: project x-y (a project whose name contains a dash) with
default section u. -/
def projXY6 : Project := ⟨['5'], ['x', '-', 'y'], ['W'], [], [], ['u']⟩

/-- Test fixture: a configuration holding the three sections and the two
projects above. -/
def cfg6 : Config :=
  ⟨['b'], ['n'], true, 10, [], [['e']], [secU6, secYZ6, secZ6], [projX6, projXY6]⟩

/-- Test fixture: a news entry tagged with project x and section y-z. -/
def newsA6 : News :=
  ⟨1, ['r'], ['R'], ⟨0, 0⟩, ['m'], [(11, ['y', '-', 'z'])], [(12, ['x'])], [], []⟩

/-- Test fixture: a news entry tagged with project x-y and section z. -/
def newsB6 : News :=
  ⟨2, ['r'], ['R'], ⟨0, 0⟩, ['m'], [(21, ['z'])], [(22, ['x', '-', 'y'])], [], []⟩

/-- Test fixture: a news entry tagged with project x and section z (all names
dash-free). -/
def newsW6 : News :=
  ⟨3, ['r'], ['R'], ⟨0, 0⟩, ['m'], [(31, ['z'])], [(32, ['x'])], [], []⟩

theorem lookupAL_insert_self {α β : Type} [DecidableEq α] (l : List (α × β)) (k : α) (v : β) :
    lookupAL (insertAL l k v) k = some v := by
  induction l with
  | nil => simp [insertAL, lookupAL]
  | cons hd t ih =>
    obtain ⟨a, b⟩ := hd
    by_cases h : a = k
    · simp [insertAL, h, lookupAL]
    · simp [insertAL, h, lookupAL, ih]

theorem lookupAL_insert_ne {α β : Type} [DecidableEq α] (l : List (α × β)) (k k' : α) (v : β)
    (h : k' ≠ k) : lookupAL (insertAL l k v) k' = lookupAL l k' := by
  have hkk : ¬k = k' := fun he => h he.symm
  induction l with
  | nil => simp [insertAL, lookupAL, hkk]
  | cons hd t ih =>
    obtain ⟨a, b⟩ := hd
    by_cases ha : a = k
    · subst ha
      simp [insertAL, lookupAL, hkk]
    · by_cases ha' : a = k'
      · subst ha'
        simp [insertAL, ha, lookupAL]
      · simp [insertAL, ha, lookupAL, ha', ih]

theorem insertAL_idem {α β : Type} [DecidableEq α] (l : List (α × β)) (k : α) (v : β) :
    insertAL (insertAL l k v) k v = insertAL l k v := by
  induction l with
  | nil => simp [insertAL]
  | cons hd t ih =>
    obtain ⟨a, b⟩ := hd
    by_cases h : a = k
    · simp [insertAL, h]
    · simp [insertAL, h, ih]

theorem removeAL_fst_eq_lookup {α β : Type} [DecidableEq α] (l : List (α × β)) (k : α) :
    (removeAL l k).1 = lookupAL l k := by
  induction l with
  | nil => simp [removeAL, lookupAL]
  | cons hd t ih =>
    obtain ⟨a, b⟩ := hd
    by_cases h : a = k
    · simp [removeAL, h, lookupAL]
    · simp [removeAL, h, lookupAL, ih]

theorem removeAL_not_found {α β : Type} [DecidableEq α] (l : List (α × β)) (k : α)
    (h : lookupAL l k = none) : (removeAL l k).2 = l := by
  induction l with
  | nil => simp [removeAL]
  | cons hd t ih =>
    obtain ⟨a, b⟩ := hd
    by_cases ha : a = k
    · simp [lookupAL, ha] at h
    · simp only [lookupAL, if_neg ha] at h
      simp [removeAL, ha, ih h]

theorem lookupAL_removeAL_ne {α β : Type} [DecidableEq α] (l : List (α × β)) (k k' : α)
    (h : k' ≠ k) : lookupAL (removeAL l k).2 k' = lookupAL l k' := by
  have hkk : ¬k = k' := fun he => h he.symm
  induction l with
  | nil => simp [removeAL]
  | cons hd t ih =>
    obtain ⟨a, b⟩ := hd
    by_cases ha : a = k
    · subst ha
      simp [removeAL, lookupAL, hkk]
    · by_cases ha' : a = k'
      · subst ha'
        simp [removeAL, ha, lookupAL]
      · simp [removeAL, ha, lookupAL, ha', ih]

theorem lookupAL_none_of_not_mem_keys {α β : Type} [DecidableEq α] (l : List (α × β)) (k : α)
    (h : k ∉ l.map Prod.fst) : lookupAL l k = none := by
  induction l with
  | nil => simp [lookupAL]
  | cons hd t ih =>
    obtain ⟨a, b⟩ := hd
    simp only [List.map_cons, List.mem_cons, not_or] at h
    have ha : ¬a = k := fun he => h.1 he.symm
    simp [lookupAL, ha, ih h.2]

theorem lookupAL_removeAL_self {α β : Type} [DecidableEq α] (l : List (α × β)) (k : α)
    (h : (l.map Prod.fst).Nodup) : lookupAL (removeAL l k).2 k = none := by
  induction l with
  | nil => simp [removeAL, lookupAL]
  | cons hd t ih =>
    obtain ⟨a, b⟩ := hd
    simp only [List.map_cons, List.nodup_cons] at h
    by_cases ha : a = k
    · subst ha
      simp only [removeAL, if_pos rfl]
      exact lookupAL_none_of_not_mem_keys t a h.1
    · simp [removeAL, ha, lookupAL, ih h.2]

theorem mem_insortStr (x y : Str) (l : List Str) :
    x ∈ insortStr y l ↔ x = y ∨ x ∈ l := by
  induction l with
  | nil => simp [insortStr]
  | cons z t ih =>
    by_cases h : strLe y z
    · simp [insortStr, h]
    · simp only [insortStr, if_neg h, List.mem_cons, ih]
      tauto

theorem mem_sortStr (x : Str) (l : List Str) : x ∈ sortStr l ↔ x ∈ l := by
  induction l with
  | nil => simp [sortStr]
  | cons y t ih => simp [sortStr, mem_insortStr, ih]

theorem mem_dedupAdj (x : Str) (l : List Str) : x ∈ dedupAdj l ↔ x ∈ l := by
  induction l with
  | nil => simp [dedupAdj]
  | cons y t ih =>
    cases t with
    | nil => simp [dedupAdj]
    | cons z t' =>
      by_cases h : y = z
      · subst h
        rw [show dedupAdj (y :: y :: t') = dedupAdj (y :: t') from by simp [dedupAdj]]
        rw [ih]
        simp only [List.mem_cons]
        tauto
      · simp only [dedupAdj, if_neg h, List.mem_cons] at ih ⊢
        rw [ih]

/-- C7: removing a tag by annotation id removes exactly the entry with that
id - from the section map when it holds one, otherwise from the project map
when it holds one - leaving every other entry of both tag maps, the media
maps and all remaining fields unchanged; an id present in neither map is a
no-op that reports ReactionType.None and mutates nothing. -/
theorem remove_reaction_id_exact (n : News) (id : EvId)
    (hs : (n.section_names.map Prod.fst).Nodup)
    (hp : (n.project_names.map Prod.fst).Nodup) :
    ((lookupAL n.section_names id).isSome →
      (n.remove_reaction_id id).1 = ReactionType.Section none ∧
      lookupAL (n.remove_reaction_id id).2.section_names id = none ∧
      (∀ k, k ≠ id →
        lookupAL (n.remove_reaction_id id).2.section_names k = lookupAL n.section_names k) ∧
      (n.remove_reaction_id id).2.project_names = n.project_names ∧
      (n.remove_reaction_id id).2.images = n.images ∧
      (n.remove_reaction_id id).2.videos = n.videos ∧
      (n.remove_reaction_id id).2.event_id = n.event_id ∧
      (n.remove_reaction_id id).2.reporter_id = n.reporter_id ∧
      (n.remove_reaction_id id).2.message = n.message ∧
      (n.remove_reaction_id id).2.timestamp = n.timestamp) ∧
    (lookupAL n.section_names id = none → (lookupAL n.project_names id).isSome →
      (n.remove_reaction_id id).1 = ReactionType.Project none ∧
      lookupAL (n.remove_reaction_id id).2.project_names id = none ∧
      (∀ k, k ≠ id →
        lookupAL (n.remove_reaction_id id).2.project_names k = lookupAL n.project_names k) ∧
      (n.remove_reaction_id id).2.section_names = n.section_names ∧
      (n.remove_reaction_id id).2.images = n.images ∧
      (n.remove_reaction_id id).2.videos = n.videos) ∧
    (lookupAL n.section_names id = none → lookupAL n.project_names id = none →
      n.remove_reaction_id id = (ReactionType.None, n)) := by
  refine ⟨?_, ?_, ?_⟩
  · intro h
    rw [Option.isSome_iff_exists] at h
    obtain ⟨v, hv⟩ := h
    have hr : (removeAL n.section_names id).1 = some v := by
      rw [removeAL_fst_eq_lookup]; exact hv
    simp only [News.remove_reaction_id, hr]
    refine ⟨?_, lookupAL_removeAL_self _ _ hs,
      fun k hk => lookupAL_removeAL_ne _ _ _ hk, ?_, ?_, ?_, ?_, ?_, ?_, ?_⟩ <;> trivial
  · intro h hp'
    rw [Option.isSome_iff_exists] at hp'
    obtain ⟨v, hv⟩ := hp'
    have hr : (removeAL n.section_names id).1 = none := by
      rw [removeAL_fst_eq_lookup]; exact h
    have hr2 : (removeAL n.project_names id).1 = some v := by
      rw [removeAL_fst_eq_lookup]; exact hv
    simp only [News.remove_reaction_id, hr, hr2]
    refine ⟨?_, lookupAL_removeAL_self _ _ hp,
      fun k hk => lookupAL_removeAL_ne _ _ _ hk, ?_, ?_, ?_⟩ <;> trivial
  · intro h1 h2
    have hr : (removeAL n.section_names id).1 = none := by
      rw [removeAL_fst_eq_lookup]; exact h1
    have hr2 : (removeAL n.project_names id).1 = none := by
      rw [removeAL_fst_eq_lookup]; exact h2
    simp only [News.remove_reaction_id, hr, hr2]

/-- Witness for remove_reaction_id_exact: on a News holding section tag
(5, a) and project tag (6, b), removing annotation id 5 reports a section
removal. -/
theorem remove_reaction_id_exact_witness :
    ((⟨1, ['r'], [], ⟨0, 0⟩, [], [(5, ['a'])], [(6, ['b'])], [], []⟩ : News).remove_reaction_id
      5).1 = ReactionType.Section none :=
  ((remove_reaction_id_exact
      ⟨1, ['r'], [], ⟨0, 0⟩, [], [(5, ['a'])], [(6, ['b'])], [], []⟩ 5
      (by decide) (by decide)).1 (by decide)).1

/-- C8: re-applying the same tag insertion with the same annotation id and
name is idempotent - the second insert overwrites instead of duplicating -
and starting from an empty tag map the distinct-name count after adding the
same pair twice is exactly 1, for section and for project tags alike. -/
theorem add_tag_idempotent (n : News) (id : EvId) (nm : Str) :
    ((n.add_section_name id nm).add_section_name id nm = n.add_section_name id nm) ∧
    ((n.add_project_name id nm).add_project_name id nm = n.add_project_name id nm) ∧
    (n.section_names = [] →
      ((n.add_section_name id nm).add_section_name id nm).section_names'.length = 1) ∧
    (n.project_names = [] →
      ((n.add_project_name id nm).add_project_name id nm).project_names'.length = 1) := by
  refine ⟨?_, ?_, ?_, ?_⟩
  · simp [News.add_section_name, insertAL_idem]
  · simp [News.add_project_name, insertAL_idem]
  · intro h
    simp [News.add_section_name, News.section_names', h, insertAL, sortStr, insortStr, dedupAdj]
  · intro h
    simp [News.add_project_name, News.project_names', h, insertAL, sortStr, insortStr, dedupAdj]

/-- Witness for add_tag_idempotent: adding section tag (5, a) twice to a
fresh News leaves one distinct section name. -/
theorem add_tag_idempotent_witness :
    (((⟨1, ['r'], [], ⟨0, 0⟩, [], [], [], [], []⟩ : News).add_section_name 5
      ['a']).add_section_name 5 ['a']).section_names'.length = 1 :=
  (add_tag_idempotent ⟨1, ['r'], [], ⟨0, 0⟩, [], [], [], [], []⟩ 5 ['a']).2.2.1 rfl

/-- C2 counterexample: with an empty store - so the id is absent - and a
submission whose message stays under the configured minimum length,
Bot::add_news does not insert the News: the store keeps no entry and the
outcome is the too-short rejection, refuting that an absent id always leads
to an insert-and-persist. -/
theorem add_news_counterexample :
    NewsStore.news_by_message_id ⟨[], 0⟩ 1 = none ∧
    (Bot.add_news (fun m => m) (fun _ _ => false) cfgMin ⟨[], 0⟩
      (plainNews 1 ['r'] ⟨0, 0⟩ ['h', 'i']) false).store.news_map = [] ∧
    (Bot.add_news (fun m => m) (fun _ _ => false) cfgMin ⟨[], 0⟩
      (plainNews 1 ['r'] ⟨0, 0⟩ ['h', 'i']) false).outcome = AddOutcome.tooShort := by
  decide

/-- C2 amended: Bot::add_news on a store already holding the id fails as a
duplicate and changes nothing; on an absent id it inserts the
mention-stripped News and persists exactly when the stripped message exceeds
the configured minimum length, and otherwise rejects the submission as too
short without touching the store. -/
theorem add_news_duplicate_or_insert (strip : Str → Str)
    (matchesP : Project → Str → Bool) (cfg : Config) (store : NewsStore)
    (news : News) (notify : Bool) :
    ((store.news_by_message_id news.event_id).isSome →
      Bot.add_news strip matchesP cfg store news notify =
        ⟨.duplicate, store, [.cannotResubmit news.event_id], [], []⟩) ∧
    (store.news_by_message_id news.event_id = none →
      byteLen (strip news.message) > cfg.min_length →
      (Bot.add_news strip matchesP cfg store news notify).outcome = .added ∧
      (Bot.add_news strip matchesP cfg store news notify).store.news_map =
        insertAL store.news_map news.event_id {news with message := strip news.message} ∧
      (Bot.add_news strip matchesP cfg store news notify).store.writes = store.writes + 1) ∧
    (store.news_by_message_id news.event_id = none →
      ¬byteLen (strip news.message) > cfg.min_length →
      (Bot.add_news strip matchesP cfg store news notify).outcome = .tooShort ∧
      (Bot.add_news strip matchesP cfg store news notify).store = store) := by
  refine ⟨?_, ?_, ?_⟩
  · intro h
    simp [Bot.add_news, h]
  · intro h hlen
    simp [Bot.add_news, h, hlen, NewsStore.add_news, NewsStore.write_data]
  · intro h hlen
    simp [Bot.add_news, h, hlen]

/-- Witness for add_news_duplicate_or_insert: resubmitting the already-stored
event id 5 is rejected as a duplicate and the store is unchanged. -/
theorem add_news_duplicate_or_insert_witness :
    Bot.add_news (fun m => m) (fun _ _ => false) cfgMin storeOne
      (plainNews 5 ['r'] ⟨0, 0⟩ ['m']) false =
      ⟨.duplicate, storeOne, [.cannotResubmit 5], [], []⟩ :=
  (add_news_duplicate_or_insert (fun m => m) (fun _ _ => false) cfgMin storeOne
    (plainNews 5 ['r'] ⟨0, 0⟩ ['m']) false).1 (by decide)

/-- C10: a reaction event whose sender is the bot's own configured user id is
ignored outright - the store is unchanged (so no News is created and no tag
or media map is mutated, and nothing is persisted) and no message or
suggestion reaction is produced. -/
theorem own_reaction_ignored (strip : Str → Str)
    (matchesP : Project → Str → Bool) (cfg : Config) (store : NewsStore)
    (reaction_sender reaction_emoji : Str) (reaction_event_id : EvId)
    (related_event : RelatedEvent) (now : Timestamp)
    (h : reaction_sender = cfg.bot_user_id) :
    on_reporting_room_reaction strip matchesP cfg store reaction_sender
      reaction_emoji reaction_event_id related_event now =
      some ⟨store, [], [], []⟩ := by
  simp [on_reporting_room_reaction, h]

/-- Witness for own_reaction_ignored: the bot reacting with the configured
section emoji to a stored News has no effect. -/
theorem own_reaction_ignored_witness :
    on_reporting_room_reaction (fun m => m) (fun _ _ => false) cfgOpen storeOne
      ['b'] ['s'] 7 relC3 ⟨0, 0⟩ = some ⟨storeOne, [], [], []⟩ :=
  own_reaction_ignored (fun m => m) (fun _ _ => false) cfgOpen storeOne
    ['b'] ['s'] 7 relC3 ⟨0, 0⟩ rfl

/-- C3: evaluation of the code at the failing input of the editor-only
tagging claim. With restrict_notice set to false, a sender who is neither
the bot nor a configured editor reacts with the section emoji to a stored
News: the engine inserts the tag into the News's section map and sends a
confirmation, although the claim (and the guard's own comment) say a
non-editor's tagging reaction is silently ignored. -/
theorem non_editor_tags_when_restrict_notice_off :
    (['z'] ∉ cfgOpen.editors) ∧ cfgOpen.restrict_notice = false ∧
    on_reporting_room_reaction (fun m => m) (fun _ _ => false) cfgOpen storeOne
      ['z'] ['s'] 7 relC3 ⟨0, 0⟩ =
      some ⟨⟨[(5, (plainNews 5 ['r'] ⟨0, 0⟩ ['m']).add_section_name 7 ['s', 'e', 'c'])], 1⟩,
            [Msg.sectionConfirm ['z'] ['r'] 5 ['S', 'e', 'c']], [], []⟩ := by
  decide

theorem findRelatedLoop_keep (rep : Str) (ts : Timestamp) :
    ∀ (l : List News) (d : Int) (r : News),
    (∀ m ∈ l, m.reporter_id = rep → d ≤ time_diff_secs m.timestamp ts) →
    findRelatedLoop rep ts l (some d) (some r) = some r := by
  intro l
  induction l with
  | nil => intro d r _; rfl
  | cons n t ih =>
    intro d r h
    by_cases hn : n.reporter_id = rep
    · have hle := h n (List.mem_cons_self n t) hn
      have hnlt : ¬time_diff_secs n.timestamp ts < d := not_lt.mpr hle
      simp only [findRelatedLoop, if_neg (not_not_intro hn), if_neg hnlt]
      exact ih d r (fun m hm hr => h m (List.mem_cons_of_mem n hm) hr)
    · simp only [findRelatedLoop, if_pos hn]
      exact ih d r (fun m hm hr => h m (List.mem_cons_of_mem n hm) hr)

theorem findRelatedLoop_min (rep : Str) (ts : Timestamp) :
    ∀ (l : List News) (sd : Option Int) (r0 : Option News) (r : News),
    (sd = none → r0 = none) →
    (∀ d rr, sd = some d → r0 = some rr →
      rr.reporter_id = rep ∧ time_diff_secs rr.timestamp ts = d) →
    (sd.isSome → r0.isSome) →
    findRelatedLoop rep ts l sd r0 = some r →
    r.reporter_id = rep ∧
    (r ∈ l ∨ r0 = some r) ∧
    (∀ m ∈ l, m.reporter_id = rep →
      time_diff_secs r.timestamp ts ≤ time_diff_secs m.timestamp ts) ∧
    (∀ d, sd = some d → time_diff_secs r.timestamp ts ≤ d) := by
  intro l
  induction l with
  | nil =>
    intro sd r0 r h1 h2 _ hres
    cases sd with
    | none =>
      have : r0 = none := h1 rfl
      rw [show findRelatedLoop rep ts [] none r0 = r0 from rfl, this] at hres
      exact absurd hres (by simp)
    | some d =>
      have hr0 : r0 = some r := hres
      obtain ⟨ha, hb⟩ := h2 d r rfl hr0
      exact ⟨ha, Or.inr hr0, by simp, fun d' hd' => by
        cases hd'; exact le_of_eq hb⟩
  | cons n t ih =>
    intro sd r0 r h1 h2 h3 hres
    by_cases hn : n.reporter_id = rep
    · cases sd with
      | none =>
        simp only [findRelatedLoop, if_neg (not_not_intro hn)] at hres
        obtain ⟨ha, hmem, hall, hsd⟩ :=
          ih (some (time_diff_secs n.timestamp ts)) (some n) r
            (fun h => by cases h)
            (fun d rr hd hr => by
              cases hd; cases hr; exact ⟨hn, rfl⟩)
            (fun _ => rfl) hres
        refine ⟨ha, ?_, ?_, fun d hd => by cases hd⟩
        · rcases hmem with h | h
          · exact Or.inl (List.mem_cons_of_mem n h)
          · cases h; exact Or.inl (List.mem_cons_self n t)
        · intro m hm hmr
          rcases List.mem_cons.mp hm with h | h
          · cases h; exact hsd _ rfl
          · exact hall m h hmr
      | some d0 =>
        obtain ⟨rr, hr0⟩ := Option.isSome_iff_exists.mp (h3 rfl)
        by_cases hlt : time_diff_secs n.timestamp ts < d0
        · simp only [findRelatedLoop, if_neg (not_not_intro hn), if_pos hlt] at hres
          obtain ⟨ha, hmem, hall, hsd⟩ :=
            ih (some (time_diff_secs n.timestamp ts)) (some n) r
              (fun h => by cases h)
              (fun d rr' hd hr => by cases hd; cases hr; exact ⟨hn, rfl⟩)
              (fun _ => rfl) hres
          refine ⟨ha, ?_, ?_, ?_⟩
          · rcases hmem with h | h
            · exact Or.inl (List.mem_cons_of_mem n h)
            · cases h; exact Or.inl (List.mem_cons_self n t)
          · intro m hm hmr
            rcases List.mem_cons.mp hm with h | h
            · cases h; exact hsd _ rfl
            · exact hall m h hmr
          · intro d hd
            cases hd
            exact le_of_lt (lt_of_le_of_lt (hsd _ rfl) hlt)
        · simp only [findRelatedLoop, if_neg (not_not_intro hn), if_neg hlt] at hres
          obtain ⟨ha, hmem, hall, hsd⟩ :=
            ih (some d0) r0 r (fun h => by cases h) h2 h3 hres
          refine ⟨ha, ?_, ?_, hsd⟩
          · rcases hmem with h | h
            · exact Or.inl (List.mem_cons_of_mem n h)
            · exact Or.inr h
          · intro m hm hmr
            rcases List.mem_cons.mp hm with h | h
            · cases h
              exact le_trans (hsd _ rfl) (not_lt.mp hlt)
            · exact hall m h hmr
    · simp only [findRelatedLoop, if_pos hn] at hres
      obtain ⟨ha, hmem, hall, hsd⟩ := ih sd r0 r h1 h2 h3 hres
      refine ⟨ha, ?_, ?_, hsd⟩
      · rcases hmem with h | h
        · exact Or.inl (List.mem_cons_of_mem n h)
        · exact Or.inr h
      · intro m hm hmr
        rcases List.mem_cons.mp hm with h | h
        · cases h; exact absurd hmr hn
        · exact hall m h hmr

theorem findRelatedLoop_ne_none_of_some (rep : Str) (ts : Timestamp) :
    ∀ (l : List News) (sd : Option Int) (rr : News),
    findRelatedLoop rep ts l sd (some rr) ≠ none := by
  intro l
  induction l with
  | nil => intro sd rr h; exact Option.noConfusion h
  | cons n t ih =>
    intro sd rr
    by_cases hn : n.reporter_id = rep
    · cases sd with
      | none =>
        simp only [findRelatedLoop, if_neg (not_not_intro hn)]
        exact ih _ n
      | some d0 =>
        by_cases hlt : time_diff_secs n.timestamp ts < d0
        · simp only [findRelatedLoop, if_neg (not_not_intro hn), if_pos hlt]
          exact ih _ n
        · simp only [findRelatedLoop, if_neg (not_not_intro hn), if_neg hlt]
          exact ih _ rr
    · simp only [findRelatedLoop, if_pos hn]
      exact ih sd rr

theorem findRelatedLoop_no_cand (rep : Str) (ts : Timestamp) :
    ∀ (l : List News) (sd : Option Int) (r0 : Option News),
    (∀ m ∈ l, ¬m.reporter_id = rep) →
    findRelatedLoop rep ts l sd r0 = r0 := by
  intro l
  induction l with
  | nil => intro sd r0 _; rfl
  | cons n t ih =>
    intro sd r0 h
    have hn := h n (List.mem_cons_self n t)
    simp only [findRelatedLoop, if_pos hn]
    exact ih sd r0 (fun m hm => h m (List.mem_cons_of_mem n hm))

theorem findRelatedLoop_cand_ne_none (rep : Str) (ts : Timestamp) :
    ∀ (l : List News) (sd : Option Int) (r0 : Option News) (m : News),
    (sd.isSome → r0.isSome) → m ∈ l → m.reporter_id = rep →
    findRelatedLoop rep ts l sd r0 ≠ none := by
  intro l
  induction l with
  | nil => intro sd r0 m _ hm; simp at hm
  | cons n t ih =>
    intro sd r0 m hinv hm hrep
    by_cases hn : n.reporter_id = rep
    · cases sd with
      | none =>
        simp only [findRelatedLoop, if_neg (not_not_intro hn)]
        exact findRelatedLoop_ne_none_of_some rep ts t _ n
      | some d0 =>
        obtain ⟨rr, hr0⟩ := Option.isSome_iff_exists.mp (hinv rfl)
        by_cases hlt : time_diff_secs n.timestamp ts < d0
        · simp only [findRelatedLoop, if_neg (not_not_intro hn), if_pos hlt]
          exact findRelatedLoop_ne_none_of_some rep ts t _ n
        · simp only [findRelatedLoop, if_neg (not_not_intro hn), if_neg hlt]
          rw [hr0]
          exact findRelatedLoop_ne_none_of_some rep ts t _ rr
    · simp only [findRelatedLoop, if_pos hn]
      rcases List.mem_cons.mp hm with h | h
      · cases h; exact absurd hrep hn
      · exact ih sd r0 m hinv h hrep

/-- C1 counterexample: the store holds two News of reporter r - one the day
before the query at the same time of day, one the same day an hour later.
find_related_news returns the day-old entry, although the other News is
strictly nearer when the difference is taken between the full timestamps
(date and time), refuting that the full-timestamp-nearest News is returned. -/
theorem find_related_news_counterexample :
    NewsStore.find_related_news
        ⟨[(1, plainNews 1 ['r'] ⟨0, 1800⟩ []), (2, plainNews 2 ['r'] ⟨1, 3600⟩ [])], 0⟩
        ['r'] ⟨1, 1800⟩ = some (plainNews 1 ['r'] ⟨0, 1800⟩ []) ∧
    (plainNews 2 ['r'] ⟨1, 3600⟩ []).reporter_id = ['r'] ∧
    NewsStore.news_by_message_id
        ⟨[(1, plainNews 1 ['r'] ⟨0, 1800⟩ []), (2, plainNews 2 ['r'] ⟨1, 3600⟩ [])], 0⟩ 2 =
      some (plainNews 2 ['r'] ⟨1, 3600⟩ []) ∧
    full_diff_secs (plainNews 2 ['r'] ⟨1, 3600⟩ []).timestamp ⟨1, 1800⟩ <
      full_diff_secs (plainNews 1 ['r'] ⟨0, 1800⟩ []).timestamp ⟨1, 1800⟩ := by
  decide

/-- C1 amended: find_related_news returns a stored News of the given
reporter whose TIME-OF-DAY difference (in absolute seconds, the date being
ignored) to the queried timestamp is minimal among that reporter's stored
News, and it returns none exactly when the store holds no News of that
reporter. -/
theorem find_related_news_nearest_time_of_day (s : NewsStore) (rep : Str)
    (ts : Timestamp) :
    (∀ r, s.find_related_news rep ts = some r →
      r.reporter_id = rep ∧ r ∈ s.news_map.map Prod.snd ∧
      ∀ m ∈ s.news_map.map Prod.snd, m.reporter_id = rep →
        time_diff_secs r.timestamp ts ≤ time_diff_secs m.timestamp ts) ∧
    (s.find_related_news rep ts = none ↔
      ∀ m ∈ s.news_map.map Prod.snd, ¬m.reporter_id = rep) := by
  constructor
  · intro r h
    obtain ⟨ha, hmem, hall, _⟩ :=
      findRelatedLoop_min rep ts (s.news_map.map Prod.snd) none none r
        (fun _ => rfl) (fun d rr hd => by cases hd) (by simp) h
    refine ⟨ha, ?_, hall⟩
    rcases hmem with h' | h'
    · exact h'
    · exact absurd h' (by simp)
  · constructor
    · intro h m hm hrep
      exact absurd h
        (findRelatedLoop_cand_ne_none rep ts (s.news_map.map Prod.snd) none none m
          (by simp) hm hrep)
    · intro h
      exact findRelatedLoop_no_cand rep ts (s.news_map.map Prod.snd) none none h

/-- Witness for find_related_news_nearest_time_of_day: on a one-entry store
the returned News is that entry and carries the queried reporter id. -/
theorem find_related_news_nearest_time_of_day_witness :
    (plainNews 1 ['r'] ⟨0, 1800⟩ []).reporter_id = ['r'] :=
  ((find_related_news_nearest_time_of_day
      ⟨[(1, plainNews 1 ['r'] ⟨0, 1800⟩ [])], 0⟩ ['r'] ⟨1, 1800⟩).1
    (plainNews 1 ['r'] ⟨0, 1800⟩ []) (by decide)).1

theorem findRelatedLoop_first_min (rep : Str) (ts : Timestamp) :
    ∀ (pre rest : List News) (a : News) (sd : Option Int) (r0 : Option News),
    a.reporter_id = rep →
    (∀ m ∈ pre, m.reporter_id = rep →
      time_diff_secs a.timestamp ts < time_diff_secs m.timestamp ts) →
    (∀ m ∈ rest, m.reporter_id = rep →
      time_diff_secs a.timestamp ts ≤ time_diff_secs m.timestamp ts) →
    (∀ d, sd = some d → time_diff_secs a.timestamp ts < d) →
    findRelatedLoop rep ts (pre ++ a :: rest) sd r0 = some a := by
  intro pre
  induction pre with
  | nil =>
    intro rest a sd r0 ha _ hrest hsd
    rw [List.nil_append]
    cases sd with
    | none =>
      simp only [findRelatedLoop, if_neg (not_not_intro ha)]
      exact findRelatedLoop_keep rep ts rest _ a hrest
    | some d =>
      simp only [findRelatedLoop, if_neg (not_not_intro ha), if_pos (hsd d rfl)]
      exact findRelatedLoop_keep rep ts rest _ a hrest
  | cons x pre' ih =>
    intro rest a sd r0 ha hpre hrest hsd
    rw [List.cons_append]
    by_cases hx : x.reporter_id = rep
    · have hlt := hpre x (List.mem_cons_self x pre') hx
      cases sd with
      | none =>
        simp only [findRelatedLoop, if_neg (not_not_intro hx)]
        exact ih rest a _ (some x) ha
          (fun m hm hr => hpre m (List.mem_cons_of_mem x hm) hr) hrest
          (fun d hd => by cases hd; exact hlt)
      | some d0 =>
        by_cases hc : time_diff_secs x.timestamp ts < d0
        · simp only [findRelatedLoop, if_neg (not_not_intro hx), if_pos hc]
          exact ih rest a _ (some x) ha
            (fun m hm hr => hpre m (List.mem_cons_of_mem x hm) hr) hrest
            (fun d hd => by cases hd; exact hlt)
        · simp only [findRelatedLoop, if_neg (not_not_intro hx), if_neg hc]
          exact ih rest a _ r0 ha
            (fun m hm hr => hpre m (List.mem_cons_of_mem x hm) hr) hrest hsd
    · simp only [findRelatedLoop, if_pos hx]
      exact ih rest a sd r0 ha
        (fun m hm hr => hpre m (List.mem_cons_of_mem x hm) hr) hrest hsd

/-- C9 counterexample: the lookup is order-sensitive on ties. The source
iterates std HashMap::values(), whose order is arbitrary and seeded per map
instance, so the store's entry list here stands for the order one particular
map happens to iterate. Two stores holding exactly the same entries (their
entry lists are permutations of one another, as two HashMap instances built
by the same insertion sequence may iterate in either order) disagree on an
equidistant tie: each returns the candidate its own iteration encounters
first, refuting the insertion-order tie-break and the cross-instance
determinism the claim asserts. -/
theorem find_related_news_order_counterexample :
    NewsStore.find_related_news
        ⟨[(1, plainNews 1 ['r'] ⟨0, 100⟩ []), (2, plainNews 2 ['r'] ⟨0, 300⟩ [])], 0⟩
        ['r'] ⟨0, 200⟩ = some (plainNews 1 ['r'] ⟨0, 100⟩ []) ∧
    NewsStore.find_related_news
        ⟨[(2, plainNews 2 ['r'] ⟨0, 300⟩ []), (1, plainNews 1 ['r'] ⟨0, 100⟩ [])], 0⟩
        ['r'] ⟨0, 200⟩ = some (plainNews 2 ['r'] ⟨0, 300⟩ []) ∧
    List.Perm
      [(1, plainNews 1 ['r'] ⟨0, 100⟩ []), (2, plainNews 2 ['r'] ⟨0, 300⟩ [])]
      [(2, plainNews 2 ['r'] ⟨0, 300⟩ []), (1, plainNews 1 ['r'] ⟨0, 100⟩ [])] ∧
    time_diff_secs ⟨0, 100⟩ ⟨0, 200⟩ = time_diff_secs ⟨0, 300⟩ ⟨0, 200⟩ := by
  decide

/-- C9 (amended): the tie-break is by iteration encounter order, not by
insertion order. The store's entry list models the order in which
HashMap::values() happens to iterate one particular map instance; the source
leaves that order arbitrary and seeds it per map. Relative to that order the
loop is deterministic: whenever the iterated values split as pre, a, rest
with a of the queried reporter, every earlier same-reporter entry strictly
farther in time of day and every later one no nearer, the result is exactly
a - a later equidistant candidate never displaces a. No cross-instance
guarantee follows: two maps holding the same entries may iterate them
differently and resolve ties differently (see the counterexample). -/
theorem find_related_news_first_in_iteration_order (s : NewsStore) (rep : Str)
    (ts : Timestamp) (pre rest : List News) (a : News)
    (hsplit : s.news_map.map Prod.snd = pre ++ a :: rest)
    (ha : a.reporter_id = rep)
    (hpre : ∀ m ∈ pre, m.reporter_id = rep →
      time_diff_secs a.timestamp ts < time_diff_secs m.timestamp ts)
    (hrest : ∀ m ∈ rest, m.reporter_id = rep →
      time_diff_secs a.timestamp ts ≤ time_diff_secs m.timestamp ts) :
    s.find_related_news rep ts = some a := by
  rw [NewsStore.find_related_news, hsplit]
  exact findRelatedLoop_first_min rep ts pre rest a none none ha hpre hrest
    (fun d hd => by cases hd)

/-- Witness for find_related_news_first_in_iteration_order: two same-reporter
News equidistant (100 seconds) from the query; the entry iterated first wins
the tie. -/
theorem find_related_news_first_in_iteration_order_witness :
    NewsStore.find_related_news
        ⟨[(1, plainNews 1 ['r'] ⟨0, 100⟩ []), (2, plainNews 2 ['r'] ⟨0, 300⟩ [])], 0⟩
        ['r'] ⟨0, 200⟩ = some (plainNews 1 ['r'] ⟨0, 100⟩ []) :=
  find_related_news_first_in_iteration_order
    ⟨[(1, plainNews 1 ['r'] ⟨0, 100⟩ []), (2, plainNews 2 ['r'] ⟨0, 300⟩ [])], 0⟩
    ['r'] ⟨0, 200⟩ [] [plainNews 2 ['r'] ⟨0, 300⟩ []] (plainNews 1 ['r'] ⟨0, 100⟩ [])
    (by decide) (by decide) (by decide) (by decide)

theorem filter_ne_vs16_idem (l : Str) :
    (l.filter (fun c => c != vs16)).filter (fun c => c != vs16) =
      l.filter (fun c => c != vs16) := by
  induction l with
  | nil => rfl
  | cons c t ih =>
    by_cases h : c != vs16
    · simp [List.filter_cons, h, ih]
    · simp [List.filter_cons, h, ih]

theorem emoji_cmp_strip_right (a b : Str) :
    emoji_cmp a (b.filter (fun c => c != vs16)) = emoji_cmp a b := by
  unfold emoji_cmp
  rw [filter_ne_vs16_idem]

/-- C5 counterexample: with the fixture configuration, the inputs c-question
mark and plain c have the same claim-side normal form (the trailing marker is
stripped), yet the classifier maps the first to the project and the second to
None - so the classifier does not normalize by stripping a trailing
disambiguation marker before comparing. -/
theorem reaction_type_marker_counterexample :
    claimNormalize ['c', '?'] = claimNormalize ['c'] ∧
    cfgC5.reaction_type_by_emoji ['c', '?'] ≠ cfgC5.reaction_type_by_emoji ['c'] ∧
    cfgC5.reaction_type_by_emoji ['c', '?'] = ReactionType.Project (some projC5) ∧
    cfgC5.reaction_type_by_emoji ['c'] = ReactionType.None := by
  decide

/-- C5 amended: the classifier compares the raw emoji - stripping only
variation-selector codepoints from both sides, case-sensitively - against
the notice emoji first, then the section emojis in order, then the project
emojis in order, first match winning, None otherwise; no trailing marker is
stripped by the classifier: instead every configured project emoji carries
the marker appended at load time, so a project can only match when the
input itself ends in the marker (after selector stripping); and inputs
differing only by variation selectors classify identically. -/
theorem reaction_type_by_emoji_amended (cfg : Config) (e : Str) (p : Project) :
    (cfg.reaction_type_by_emoji (e.filter (fun c => c != vs16)) =
      cfg.reaction_type_by_emoji e) ∧
    (emoji_cmp cfg.notice_emoji e = true →
      cfg.reaction_type_by_emoji e = ReactionType.Notice) ∧
    ((∀ q ∈ cfg.projects, ∃ raw, q.emoji = deserialize_emoji raw) →
      cfg.reaction_type_by_emoji e = ReactionType.Project (some p) →
      (e.filter (fun c => c != vs16)).getLast? = some '?') := by
  refine ⟨?_, ?_, ?_⟩
  · have h1 : emoji_cmp cfg.notice_emoji (e.filter (fun c => c != vs16)) =
        emoji_cmp cfg.notice_emoji e := emoji_cmp_strip_right _ _
    have h2 : (fun s : Section => emoji_cmp s.emoji (e.filter (fun c => c != vs16))) =
        (fun s : Section => emoji_cmp s.emoji e) :=
      funext fun s => emoji_cmp_strip_right _ _
    have h3 : (fun q : Project => emoji_cmp q.emoji (e.filter (fun c => c != vs16))) =
        (fun q : Project => emoji_cmp q.emoji e) :=
      funext fun q => emoji_cmp_strip_right _ _
    simp only [Config.reaction_type_by_emoji, h1, h2, h3]
  · intro h
    simp only [Config.reaction_type_by_emoji, h, if_pos]
  · intro hproj h
    unfold Config.reaction_type_by_emoji at h
    by_cases hn : emoji_cmp cfg.notice_emoji e
    · rw [if_pos hn] at h
      exact absurd h (by simp)
    · rw [if_neg hn] at h
      cases hs : cfg.sections.find? (fun s => emoji_cmp s.emoji e) with
      | some s =>
        rw [hs] at h
        exact absurd h (by simp)
      | none =>
        rw [hs] at h
        cases hp : cfg.projects.find? (fun q => emoji_cmp q.emoji e) with
        | none =>
          rw [hp] at h
          exact absurd h (by simp)
        | some p' =>
          rw [hp] at h
          have hcmp := List.find?_some hp
          have hcmp' : emoji_cmp p'.emoji e = true := hcmp
          have hmem : p' ∈ cfg.projects := List.mem_of_find?_eq_some hp
          obtain ⟨raw, hraw⟩ := hproj p' hmem
          have heq : p'.emoji.filter (fun c => c != vs16) =
              e.filter (fun c => c != vs16) := by
            unfold emoji_cmp at hcmp'
            exact eq_of_beq hcmp'
          rw [hraw] at heq
          unfold deserialize_emoji at heq
          rw [List.filter_append] at heq
          have hq : List.filter (fun c => c != vs16) ['?'] = ['?'] := by decide
          rw [hq] at heq
          rw [← heq]
          exact List.getLast?_concat _

/-- Witness for reaction_type_by_emoji_amended: the notice emoji classifies
as Notice, and the marker-carrying project reaction ends in the marker. -/
theorem reaction_type_by_emoji_amended_witness :
    cfgC5.reaction_type_by_emoji ['n'] = ReactionType.Notice ∧
    (['c', '?'].filter (fun c => c != vs16)).getLast? = some '?' :=
  ⟨(reaction_type_by_emoji_amended cfgC5 ['n'] projC5).2.1 (by decide),
   (reaction_type_by_emoji_amended cfgC5 ['c', '?'] projC5).2.2
    (by
      intro q hq
      simp only [cfgC5, List.mem_singleton] at hq
      exact ⟨['c'], by rw [hq]; rfl⟩)
    (by decide)⟩

theorem mem_keys_insertAL {α β : Type} [DecidableEq α] (l : List (α × β)) (k x : α) (v : β) :
    x ∈ (insertAL l k v).map Prod.fst ↔ x = k ∨ x ∈ l.map Prod.fst := by
  induction l with
  | nil => simp [insertAL]
  | cons hd t ih =>
    obtain ⟨a, b⟩ := hd
    by_cases h : a = k
    · subst h
      simp [insertAL]
    · simp only [insertAL, if_neg h, List.map_cons, List.mem_cons, ih]
      tauto

theorem insertAL_keys_nodup {α β : Type} [DecidableEq α] (l : List (α × β)) (k : α) (v : β)
    (h : (l.map Prod.fst).Nodup) : ((insertAL l k v).map Prod.fst).Nodup := by
  induction l with
  | nil => simp [insertAL]
  | cons hd t ih =>
    obtain ⟨a, b⟩ := hd
    simp only [List.map_cons, List.nodup_cons] at h
    by_cases he : a = k
    · subst he
      simpa [insertAL] using h
    · simp only [insertAL, if_neg he, List.map_cons, List.nodup_cons]
      refine ⟨?_, ih h.2⟩
      rw [mem_keys_insertAL]
      push_neg
      exact ⟨he, h.1⟩

theorem mem_entry_insertAL {α β : Type} [DecidableEq α] (l : List (α × β)) (k : α) (v : β)
    (e : α × β) (h : e ∈ insertAL l k v) : e = (k, v) ∨ e ∈ l := by
  induction l with
  | nil => simpa [insertAL] using h
  | cons hd t ih =>
    obtain ⟨a, b⟩ := hd
    by_cases he : a = k
    · subst he
      rcases (by simpa [insertAL] using h : e = (a, v) ∨ e ∈ t) with h' | h'
      · exact Or.inl h'
      · exact Or.inr (List.mem_cons_of_mem _ h')
    · rcases (by simpa [insertAL, he] using h : e = (a, b) ∨ e ∈ insertAL t k v) with h' | h'
      · exact Or.inr (by simp [h'])
      · rcases ih h' with h'' | h''
        · exact Or.inl h''
        · exact Or.inr (List.mem_cons_of_mem _ h'')

/-- Accumulator step of News::deduplicate_files. -/
def dedupStep (acc : List (MxcUri × (Str × MxcUri)))
    (kv : EvId × (EvId × Str × MxcUri)) : List (MxcUri × (Str × MxcUri)) :=
  insertAL acc kv.2.2.2 (kv.2.2.2.mediaId ++ '_' :: kv.2.2.1, kv.2.2.2)

theorem deduplicate_files_eq_fold (files : List (EvId × (EvId × Str × MxcUri))) :
    News.deduplicate_files files = (files.foldl dedupStep []).map Prod.snd := rfl

theorem dedup_fold_inv (files : List (EvId × (EvId × Str × MxcUri))) :
    ∀ acc, (∀ e ∈ acc, (e : MxcUri × (Str × MxcUri)).2.2 = e.1) →
    ∀ e ∈ files.foldl dedupStep acc, (e : MxcUri × (Str × MxcUri)).2.2 = e.1 := by
  induction files with
  | nil => intro acc h; exact h
  | cons kv t ih =>
    intro acc h
    refine ih _ ?_
    intro e he
    rcases mem_entry_insertAL _ _ _ _ he with h' | h'
    · rw [h']
    · exact h e h'

theorem dedup_fold_keys_nodup (files : List (EvId × (EvId × Str × MxcUri))) :
    ∀ acc, ((acc.map Prod.fst).Nodup) →
    ((files.foldl dedupStep acc).map Prod.fst).Nodup := by
  induction files with
  | nil => intro acc h; exact h
  | cons kv t ih =>
    intro acc h
    exact ih _ (insertAL_keys_nodup _ _ _ h)

theorem mem_keys_dedup_fold (files : List (EvId × (EvId × Str × MxcUri))) (u : MxcUri) :
    ∀ acc, (u ∈ (files.foldl dedupStep acc).map Prod.fst ↔
      u ∈ acc.map Prod.fst ∨ ∃ kv ∈ files, (kv : EvId × (EvId × Str × MxcUri)).2.2.2 = u) := by
  induction files with
  | nil =>
    intro acc
    simp only [List.foldl_nil, List.not_mem_nil, false_and, exists_false, or_false]
  | cons kv t ih =>
    intro acc
    rw [List.foldl_cons, ih]
    unfold dedupStep
    rw [mem_keys_insertAL]
    simp only [List.mem_cons]
    constructor
    · rintro (⟨h | h⟩ | h)
      · exact Or.inr ⟨kv, Or.inl rfl, h.symm⟩
      · exact Or.inl h
      · obtain ⟨x, hx, hu⟩ := h
        exact Or.inr ⟨x, Or.inr hx, hu⟩
    · rintro (h | ⟨x, hx | hx, hu⟩)
      · exact Or.inl (Or.inr h)
      · subst hx
        exact Or.inl (Or.inl hu.symm)
      · exact Or.inr ⟨x, hx, hu⟩

theorem insortStr_ne_nil (x : Str) (l : List Str) : insortStr x l ≠ [] := by
  cases l with
  | nil => simp [insortStr]
  | cons y t =>
    by_cases h : strLe x y
    · simp [insortStr, h]
    · simp [insortStr, h]

theorem sortStr_eq_nil_iff (l : List Str) : sortStr l = [] ↔ l = [] := by
  cases l with
  | nil => simp [sortStr]
  | cons x t => simp [sortStr, insortStr_ne_nil]

theorem dedupAdj_eq_nil_iff (l : List Str) : dedupAdj l = [] ↔ l = [] := by
  induction l with
  | nil => simp [dedupAdj]
  | cons y t ih =>
    cases t with
    | nil => simp [dedupAdj]
    | cons z t' =>
      by_cases h : y = z
      · subst h
        rw [show dedupAdj (y :: y :: t') = dedupAdj (y :: t') from by simp [dedupAdj]]
        simp [ih]
      · simp [dedupAdj, h]

theorem section_names'_eq_nil_iff (n : News) :
    n.section_names' = [] ↔ n.section_names = [] := by
  rw [News.section_names', dedupAdj_eq_nil_iff, sortStr_eq_nil_iff, List.map_eq_nil_iff]

theorem project_names'_eq_nil_iff (n : News) :
    n.project_names' = [] ↔ n.project_names = [] := by
  rw [News.project_names', dedupAdj_eq_nil_iff, sortStr_eq_nil_iff, List.map_eq_nil_iff]

theorem is_assigned_names' (n : News) (h : n.is_assigned = true) :
    (n.project_names'.isEmpty && n.section_names'.isEmpty) = false := by
  rw [News.is_assigned, Bool.or_eq_true] at h
  rcases h with h | h
  · have hne : n.project_names ≠ [] := by
      intro he
      rw [he] at h
      simp at h
    have hne' : n.project_names' ≠ [] :=
      fun he => hne ((project_names'_eq_nil_iff n).mp he)
    cases hl : n.project_names' with
    | nil => exact absurd hl hne'
    | cons a t => rfl
  · have hne : n.section_names ≠ [] := by
      intro he
      rw [he] at h
      simp at h
    have hne' : n.section_names' ≠ [] :=
      fun he => hne ((section_names'_eq_nil_iff n).mp he)
    cases hl : n.section_names' with
    | nil => exact absurd hl hne'
    | cons a t => cases n.project_names'.isEmpty <;> rfl

theorem customSectionLoop_fields (nw : News) (pn : Str) (proj : Project) :
    ∀ (sl : List Str) (ov : Bool) (st : RState),
    (customSectionLoop nw pn proj sl ov st).2.images = st.images ∧
    (customSectionLoop nw pn proj sl ov st).2.videos = st.videos ∧
    (customSectionLoop nw pn proj sl ov st).2.render_sections = st.render_sections ∧
    (customSectionLoop nw pn proj sl ov st).2.news_count = st.news_count ∧
    (customSectionLoop nw pn proj sl ov st).2.not_assigned = st.not_assigned ∧
    (customSectionLoop nw pn proj sl ov st).2.warnings = st.warnings ∧
    (customSectionLoop nw pn proj sl ov st).2.project_names = st.project_names := by
  intro sl
  induction sl with
  | nil => intro ov st; exact ⟨rfl, rfl, rfl, rfl, rfl, rfl, rfl⟩
  | cons s rest ih =>
    intro ov st
    by_cases hs : s ≠ proj.default_section
    · cases hl : lookupAL st.render_projects (pn ++ '-' :: s) with
      | some rp =>
        simp only [customSectionLoop, if_pos hs, hl]
        exact ih true _
      | none =>
        simp only [customSectionLoop, if_pos hs, hl]
        exact ih true _
    · simp only [customSectionLoop, if_neg hs]
      exact ih ov st

theorem projectLoop_fields (cfg : Config) (nw : News) :
    ∀ (pl : List Str) (st st' : RState),
    projectLoop cfg nw pl st = some st' →
    st'.images = st.images ∧ st'.videos = st.videos ∧
    st'.render_sections = st.render_sections ∧
    st'.news_count = st.news_count ∧ st'.not_assigned = st.not_assigned ∧
    st'.warnings = st.warnings := by
  intro pl
  induction pl with
  | nil =>
    intro st st' h
    cases h
    exact ⟨rfl, rfl, rfl, rfl, rfl, rfl⟩
  | cons name rest ih =>
    intro st st' h
    simp only [projectLoop] at h
    cases hp : cfg.project_by_name name with
    | none =>
      simp only [hp] at h
      exact absurd h (by simp)
    | some proj =>
      simp only [hp] at h
      rcases hc : customSectionLoop nw name proj nw.section_names' false
          {st with project_names := insertSet st.project_names name} with ⟨ov, st₂⟩
      simp only [hc] at h
      have hcf := customSectionLoop_fields nw name proj nw.section_names' false
        {st with project_names := insertSet st.project_names name}
      rw [hc] at hcf
      obtain ⟨e1, e2, e3, e4, e5, e6, _⟩ := hcf
      cases ov with
      | true =>
        rw [if_pos rfl] at h
        obtain ⟨f1, f2, f3, f4, f5, f6⟩ := ih st₂ st' h
        exact ⟨f1.trans e1, f2.trans e2, f3.trans e3, f4.trans e4, f5.trans e5, f6.trans e6⟩
      | false =>
        rw [if_neg Bool.false_ne_true] at h
        cases hl : lookupAL st₂.render_projects name with
        | some rp =>
          simp only [hl] at h
          obtain ⟨f1, f2, f3, f4, f5, f6⟩ := ih _ st' h
          exact ⟨f1.trans e1, f2.trans e2, f3.trans e3, f4.trans e4, f5.trans e5, f6.trans e6⟩
        | none =>
          simp only [hl] at h
          obtain ⟨f1, f2, f3, f4, f5, f6⟩ := ih _ st' h
          exact ⟨f1.trans e1, f2.trans e2, f3.trans e3, f4.trans e4, f5.trans e5, f6.trans e6⟩

theorem directSectionLoop_fields (cfg : Config) (nw : News) :
    ∀ (sl : List Str) (st st' : RState),
    directSectionLoop cfg nw sl st = some st' →
    st'.images = st.images ∧ st'.videos = st.videos ∧
    st'.render_projects = st.render_projects ∧
    st'.news_count = st.news_count ∧ st'.not_assigned = st.not_assigned ∧
    st'.warnings = st.warnings ∧ st'.notes = st.notes ∧
    st'.project_names = st.project_names := by
  intro sl
  induction sl with
  | nil =>
    intro st st' h
    cases h
    exact ⟨rfl, rfl, rfl, rfl, rfl, rfl, rfl, rfl⟩
  | cons s rest ih =>
    intro st st' h
    simp only [directSectionLoop] at h
    cases hp : cfg.section_by_name s with
    | none =>
      simp only [hp] at h
      exact absurd h (by simp)
    | some sec =>
      simp only [hp] at h
      cases hl : lookupAL st.render_sections (sec.order, s) with
      | some rs =>
        simp only [hl] at h
        obtain ⟨f1, f2, f3, f4, f5, f6, f7, f8⟩ := ih _ _ h
        exact ⟨f1, f2, f3, f4, f5, f6, f7, f8⟩
      | none =>
        simp only [hl] at h
        obtain ⟨f1, f2, f3, f4, f5, f6, f7, f8⟩ := ih _ _ h
        exact ⟨f1, f2, f3, f4, f5, f6, f7, f8⟩

theorem processNews_media (cfg : Config) (st : RState) (nw : News) (st' : RState)
    (h : processNews cfg st nw = some st') :
    st'.images = st.images ++ (if nw.is_assigned then nw.images' else []) ∧
    st'.videos = st.videos ++ (if nw.is_assigned then nw.videos' else []) := by
  unfold processNews at h
  cases hass : nw.is_assigned with
  | false =>
    simp only [hass, Bool.not_false, if_pos] at h
    cases h
    simp [hass]
  | true =>
    simp only [hass, Bool.not_true, Bool.false_eq_true, if_false] at h
    rw [if_neg (fun hc =>
      Bool.false_ne_true ((is_assigned_names' nw hass).symm.trans hc))] at h
    simp only [hass, if_pos]
    by_cases hw : (decide (nw.project_names'.length > 1) ||
        decide (nw.section_names'.length > 1)) = true
    · rw [if_pos hw] at h
      cases he : nw.project_names'.isEmpty with
      | true =>
        simp only [he, if_pos] at h
        obtain ⟨st₃, hd, hp2⟩ := Option.bind_eq_some.mp h
        obtain ⟨f1, f2, _, _, _, _⟩ := projectLoop_fields cfg nw _ _ _ hp2
        obtain ⟨g1, g2, _, _, _, _, _, _⟩ := directSectionLoop_fields cfg nw _ _ _ hd
        exact ⟨by rw [f1, g1], by rw [f2, g2]⟩
      | false =>
        simp only [he, Bool.false_eq_true, if_false, Option.pure_def,
          Option.some_bind] at h
        obtain ⟨f1, f2, _, _, _, _⟩ := projectLoop_fields cfg nw _ _ _ h
        exact ⟨by rw [f1], by rw [f2]⟩
    · rw [if_neg hw] at h
      cases he : nw.project_names'.isEmpty with
      | true =>
        simp only [he, if_pos] at h
        obtain ⟨st₃, hd, hp2⟩ := Option.bind_eq_some.mp h
        obtain ⟨f1, f2, _, _, _, _⟩ := projectLoop_fields cfg nw _ _ _ hp2
        obtain ⟨g1, g2, _, _, _, _, _, _⟩ := directSectionLoop_fields cfg nw _ _ _ hd
        exact ⟨by rw [f1, g1], by rw [f2, g2]⟩
      | false =>
        simp only [he, Bool.false_eq_true, if_false, Option.pure_def,
          Option.some_bind] at h
        obtain ⟨f1, f2, _, _, _, _⟩ := projectLoop_fields cfg nw _ _ _ h
        exact ⟨by rw [f1], by rw [f2]⟩

theorem foldlM_processNews_media (cfg : Config) :
    ∀ (l : List News) (st st' : RState),
    l.foldlM (processNews cfg) st = some st' →
    st'.images = st.images ++
      ((l.filter (fun m => m.is_assigned)).map News.images').flatten ∧
    st'.videos = st.videos ++
      ((l.filter (fun m => m.is_assigned)).map News.videos').flatten := by
  intro l
  induction l with
  | nil =>
    intro st st' h
    cases h
    simp
  | cons nw t ih =>
    intro st st' h
    rw [List.foldlM_cons] at h
    obtain ⟨st₁, h1, h2⟩ := Option.bind_eq_some.mp h
    obtain ⟨hi, hv⟩ := ih st₁ st' h2
    obtain ⟨pi, pv⟩ := processNews_media cfg st nw st₁ h1
    cases hass : nw.is_assigned with
    | true =>
      rw [hass] at pi pv
      simp only [List.filter_cons, hass, if_pos, List.map_cons, List.flatten_cons]
      constructor
      · rw [hi, pi, List.append_assoc]
        simp
      · rw [hv, pv, List.append_assoc]
        simp
    | false =>
      rw [hass] at pi pv
      simp only [List.filter_cons, hass, Bool.false_eq_true, if_false]
      constructor
      · rw [hi, pi]
        simp
      · rw [hv, pv]
        simp

/-- C4 counterexample: two distinct assigned News each carry an image with
the same content locator uriU; the render pipeline emits an images list
holding TWO entries with that locator, refuting that sharing a locator
across different News contributes exactly one entry. -/
theorem media_dedup_counterexample :
    mediaNewsA.is_assigned = true ∧ mediaNewsB.is_assigned = true ∧
    mediaNewsA ≠ mediaNewsB ∧
    (∃ x ∈ mediaNewsA.images, (x : EvId × (EvId × Str × MxcUri)).2.2.2 = uriU) ∧
    (∃ x ∈ mediaNewsB.images, (x : EvId × (EvId × Str × MxcUri)).2.2.2 = uriU) ∧
    (render cfgOpen [mediaNewsA, mediaNewsB]).map
        (fun res => (res.images.filter (fun e => decide (e.2 = uriU))).length) =
      some 2 := by
  decide

/-- C4 amended: media deduplication by content locator happens per News, not
across the assigned set - News::images()/videos() lists each locator of one
News exactly once (and a locator appears there exactly when some stored
media entry of that News carries it), while the render pipeline emits the
plain concatenation of the per-News deduplicated lists over the assigned
News, so the same locator appearing in k distinct News yields k entries. -/
theorem media_dedup_per_news (cfg : Config) (l : List News) (res : RenderData)
    (files : List (EvId × (EvId × Str × MxcUri))) (u : MxcUri)
    (h : render cfg l = some res) :
    (((News.deduplicate_files files).map Prod.snd).Nodup ∧
      ((∃ x ∈ News.deduplicate_files files, (x : Str × MxcUri).2 = u) ↔
        ∃ kv ∈ files, (kv : EvId × (EvId × Str × MxcUri)).2.2.2 = u)) ∧
    res.images = ((l.filter (fun m => m.is_assigned)).map News.images').flatten ∧
    res.videos = ((l.filter (fun m => m.is_assigned)).map News.videos').flatten := by
  refine ⟨⟨?_, ?_⟩, ?_⟩
  · rw [deduplicate_files_eq_fold, List.map_map]
    have hcong : (files.foldl dedupStep []).map (Prod.snd ∘ Prod.snd) =
        (files.foldl dedupStep []).map Prod.fst :=
      List.map_congr_left (fun e he => dedup_fold_inv files [] (by simp) e he)
    rw [hcong]
    exact dedup_fold_keys_nodup files [] (by simp)
  · rw [deduplicate_files_eq_fold]
    constructor
    · rintro ⟨x, hx, hxu⟩
      obtain ⟨e, he, hex⟩ := List.mem_map.mp hx
      rw [← hex] at hxu
      have hkey : e.1 = u := by
        rw [← dedup_fold_inv files [] (by simp) e he]
        exact hxu
      have hin : u ∈ (files.foldl dedupStep []).map Prod.fst :=
        List.mem_map.mpr ⟨e, he, hkey⟩
      rcases (mem_keys_dedup_fold files u []).mp hin with hfalse | hgood
      · exact absurd hfalse (by simp)
      · exact hgood
    · intro hex
      have hin : u ∈ (files.foldl dedupStep []).map Prod.fst :=
        (mem_keys_dedup_fold files u []).mpr (Or.inr hex)
      obtain ⟨e, he, hek⟩ := List.mem_map.mp hin
      refine ⟨e.2, List.mem_map.mpr ⟨e, he, rfl⟩, ?_⟩
      rw [dedup_fold_inv files [] (by simp) e he]
      exact hek
  · unfold render at h
    obtain ⟨st, h1, h2⟩ := Option.bind_eq_some.mp h
    obtain ⟨secs, h3, h4⟩ := Option.bind_eq_some.mp h2
    obtain ⟨hi, hv⟩ := foldlM_processNews_media cfg l initRState st h1
    cases h4
    constructor
    · simpa using hi
    · simpa using hv

/-- Witness for media_dedup_per_news: rendering the empty snapshot succeeds
and the per-News deduplicated image list of mediaNewsA has no repeated
locator. -/
theorem media_dedup_per_news_witness :
    ((News.deduplicate_files mediaNewsA.images).map Prod.snd).Nodup :=
  (media_dedup_per_news cfgOpen [] ⟨[], [], 0, 0, [], [], [], [RNote.summary 0 0 0]⟩
    mediaNewsA.images uriU (by decide)).1.1

theorem dash_key_inj (p s p' s' : Str) (hp : '-' ∉ p) (hp' : '-' ∉ p')
    (h : p ++ '-' :: s = p' ++ '-' :: s') : p = p' ∧ s = s' := by
  induction p generalizing p' with
  | nil =>
    cases p' with
    | nil =>
      simp only [List.nil_append] at h
      exact ⟨rfl, by injection h⟩
    | cons c t =>
      simp only [List.nil_append, List.cons_append] at h
      injection h with h1 h2
      exact absurd (by rw [h1]; exact List.mem_cons_self c t : '-' ∈ c :: t) hp'
  | cons c t ih =>
    cases p' with
    | nil =>
      simp only [List.cons_append, List.nil_append] at h
      injection h with h1 h2
      exact absurd (by rw [← h1]; exact List.mem_cons_self c t : '-' ∈ c :: t) hp
    | cons c' t' =>
      simp only [List.cons_append] at h
      injection h with h1 h2
      obtain ⟨ha, hb⟩ := ih t' (fun hm => hp (List.mem_cons_of_mem c hm))
        (fun hm => hp' (List.mem_cons_of_mem c' hm)) h2
      exact ⟨by rw [h1, ha], hb⟩

theorem dash_key_ne_plain (p s q : Str) (hq : '-' ∉ q) : p ++ '-' :: s ≠ q := by
  intro he
  apply hq
  rw [← he]
  exact List.mem_append_right p (List.mem_cons_self '-' s)

theorem csl_old_members (m : News) (pn : Str) (proj : Project) :
    ∀ (sl : List Str) (ov : Bool) (st : RState) (k : Str) (rp1 : RenderProject),
    lookupAL st.render_projects k = some rp1 →
    ∃ rp2,
      lookupAL (customSectionLoop m pn proj sl ov st).2.render_projects k = some rp2 ∧
      rp2.project = rp1.project ∧ rp2.overwritten_section = rp1.overwritten_section ∧
      ∀ x ∈ rp1.news, x ∈ rp2.news := by
  intro sl
  induction sl with
  | nil => intro ov st k rp1 h; exact ⟨rp1, h, rfl, rfl, fun x hx => hx⟩
  | cons s₀ rest ih =>
    intro ov st k rp1 h
    by_cases hs0 : s₀ ≠ proj.default_section
    · cases hl : lookupAL st.render_projects (pn ++ '-' :: s₀) with
      | some rp0 =>
        simp only [customSectionLoop, if_pos hs0, hl]
        by_cases hk : k = pn ++ '-' :: s₀
        · subst hk
          have hr : rp0 = rp1 := by
            have := hl.symm.trans h
            injection this
          obtain ⟨rp2, h2, hproj2, hov2, hmem2⟩ :=
            ih true
              {st with
                notes := RNote.overwritten m.event_id m.reporter_display_name s₀ :: st.notes,
                render_projects := insertAL st.render_projects (pn ++ '-' :: s₀)
                  {rp0 with news := m :: rp0.news}}
              (pn ++ '-' :: s₀) {rp0 with news := m :: rp0.news}
              (lookupAL_insert_self _ _ _)
          exact ⟨rp2, h2, by rw [hproj2, ← hr], by rw [hov2, ← hr],
            fun x hx => hmem2 x (List.mem_cons_of_mem m (hr ▸ hx))⟩
        · exact ih true _ k rp1 (by
            rw [lookupAL_insert_ne _ _ _ _ hk]
            exact h)
      | none =>
        simp only [customSectionLoop, if_pos hs0, hl]
        by_cases hk : k = pn ++ '-' :: s₀
        · subst hk
          rw [h] at hl
          exact absurd hl (by simp)
        · exact ih true _ k rp1 (by
            rw [lookupAL_insert_ne _ _ _ _ hk]
            exact h)
    · simp only [customSectionLoop, if_neg hs0]
      exact ih ov st k rp1 h

theorem csl_notes_mono (m : News) (pn : Str) (proj : Project) :
    ∀ (sl : List Str) (ov : Bool) (st : RState) (x : RNote),
    x ∈ st.notes → x ∈ (customSectionLoop m pn proj sl ov st).2.notes := by
  intro sl
  induction sl with
  | nil => intro ov st x hx; exact hx
  | cons s₀ rest ih =>
    intro ov st x hx
    by_cases hs0 : s₀ ≠ proj.default_section
    · cases hl : lookupAL st.render_projects (pn ++ '-' :: s₀) with
      | some rp0 =>
        simp only [customSectionLoop, if_pos hs0, hl]
        exact ih true _ x (List.mem_cons_of_mem _ hx)
      | none =>
        simp only [customSectionLoop, if_pos hs0, hl]
        exact ih true _ x (List.mem_cons_of_mem _ hx)
    · simp only [customSectionLoop, if_neg hs0]
      exact ih ov st x hx

theorem csl_new_entries (m : News) (pn : Str) (proj : Project) :
    ∀ (sl : List Str) (ov : Bool) (st : RState) (k : Str) (rp2 : RenderProject),
    lookupAL (customSectionLoop m pn proj sl ov st).2.render_projects k = some rp2 →
    (∃ rp1, lookupAL st.render_projects k = some rp1 ∧
      rp2.project = rp1.project ∧ rp2.overwritten_section = rp1.overwritten_section ∧
      ∀ x ∈ rp2.news, x ∈ rp1.news ∨
        (x = m ∧ ∃ s' ∈ sl, k = pn ++ '-' :: s' ∧ s' ≠ proj.default_section)) ∨
    (lookupAL st.render_projects k = none ∧ rp2.project = proj ∧
      (∀ x ∈ rp2.news, x = m) ∧
      ∃ s' ∈ sl, k = pn ++ '-' :: s' ∧ s' ≠ proj.default_section ∧
        rp2.overwritten_section = some s') := by
  intro sl
  induction sl with
  | nil =>
    intro ov st k rp2 h
    exact Or.inl ⟨rp2, h, rfl, rfl, fun x hx => Or.inl hx⟩
  | cons s₀ rest ih =>
    intro ov st k rp2 h
    by_cases hs0 : s₀ ≠ proj.default_section
    · cases hl : lookupAL st.render_projects (pn ++ '-' :: s₀) with
      | some rp0 =>
        simp only [customSectionLoop, if_pos hs0, hl] at h
        rcases ih true _ k rp2 h with ⟨rp1, h1, hpj, hov, hmem⟩ | ⟨h1, hpj, hall, s', hs', hk, hne, hov⟩
        · by_cases hk : k = pn ++ '-' :: s₀
          · subst hk
            rw [lookupAL_insert_self] at h1
            injection h1 with h1
            refine Or.inl ⟨rp0, hl, by rw [hpj, ← h1], by rw [hov, ← h1], ?_⟩
            intro x hx
            rcases hmem x hx with hx' | ⟨hxm, s', hs', hk', hne'⟩
            · rw [← h1] at hx'
              rcases List.mem_cons.mp hx' with hx'' | hx''
              · exact Or.inr ⟨hx'', s₀, List.mem_cons_self _ _, rfl, hs0⟩
              · exact Or.inl hx''
            · exact Or.inr ⟨hxm, s', List.mem_cons_of_mem _ hs', hk', hne'⟩
          · rw [lookupAL_insert_ne _ _ _ _ hk] at h1
            refine Or.inl ⟨rp1, h1, hpj, hov, ?_⟩
            intro x hx
            rcases hmem x hx with hx' | ⟨hxm, s', hs', hk', hne'⟩
            · exact Or.inl hx'
            · exact Or.inr ⟨hxm, s', List.mem_cons_of_mem _ hs', hk', hne'⟩
        · by_cases hk2 : k = pn ++ '-' :: s₀
          · subst hk2
            rw [lookupAL_insert_self] at h1
            exact absurd h1 (by simp)
          · rw [lookupAL_insert_ne _ _ _ _ hk2] at h1
            exact Or.inr ⟨h1, hpj, hall, s', List.mem_cons_of_mem _ hs', hk, hne, hov⟩
      | none =>
        simp only [customSectionLoop, if_pos hs0, hl] at h
        rcases ih true _ k rp2 h with ⟨rp1, h1, hpj, hov, hmem⟩ | ⟨h1, hpj, hall, s', hs', hk, hne, hov⟩
        · by_cases hk : k = pn ++ '-' :: s₀
          · subst hk
            rw [lookupAL_insert_self] at h1
            injection h1 with h1
            refine Or.inr ⟨hl, by rw [hpj, ← h1], ?_, s₀, List.mem_cons_self _ _, rfl, hs0,
              by rw [hov, ← h1]⟩
            intro x hx
            rcases hmem x hx with hx' | ⟨hxm, _⟩
            · rw [← h1] at hx'
              rcases List.mem_cons.mp hx' with hx'' | hx''
              · exact hx''
              · exact absurd hx'' (by simp)
            · exact hxm
          · rw [lookupAL_insert_ne _ _ _ _ hk] at h1
            refine Or.inl ⟨rp1, h1, hpj, hov, ?_⟩
            intro x hx
            rcases hmem x hx with hx' | ⟨hxm, s', hs', hk', hne'⟩
            · exact Or.inl hx'
            · exact Or.inr ⟨hxm, s', List.mem_cons_of_mem _ hs', hk', hne'⟩
        · by_cases hk2 : k = pn ++ '-' :: s₀
          · subst hk2
            rw [lookupAL_insert_self] at h1
            exact absurd h1 (by simp)
          · rw [lookupAL_insert_ne _ _ _ _ hk2] at h1
            exact Or.inr ⟨h1, hpj, hall, s', List.mem_cons_of_mem _ hs', hk, hne, hov⟩
    · simp only [customSectionLoop, if_neg hs0] at h
      rcases ih ov st k rp2 h with ⟨rp1, h1, hpj, hov, hmem⟩ | ⟨h1, hpj, hall, s', hs', hk, hne, hov⟩
      · refine Or.inl ⟨rp1, h1, hpj, hov, ?_⟩
        intro x hx
        rcases hmem x hx with hx' | ⟨hxm, s', hs', hk', hne'⟩
        · exact Or.inl hx'
        · exact Or.inr ⟨hxm, s', List.mem_cons_of_mem _ hs', hk', hne'⟩
      · exact Or.inr ⟨h1, hpj, hall, s', List.mem_cons_of_mem _ hs', hk, hne, hov⟩

theorem csl_self (m : News) (pn : Str) (proj : Project) :
    ∀ (sl : List Str) (ov : Bool) (st : RState) (s : Str),
    s ∈ sl → s ≠ proj.default_section →
    ∃ rp2,
      lookupAL (customSectionLoop m pn proj sl ov st).2.render_projects
        (pn ++ '-' :: s) = some rp2 ∧ m ∈ rp2.news := by
  intro sl
  induction sl with
  | nil => intro ov st s hs; simp at hs
  | cons s₀ rest ih =>
    intro ov st s hs hne
    by_cases hs0 : s₀ ≠ proj.default_section
    · cases hl : lookupAL st.render_projects (pn ++ '-' :: s₀) with
      | some rp0 =>
        simp only [customSectionLoop, if_pos hs0, hl]
        rcases List.mem_cons.mp hs with he | hrest
        · subst he
          obtain ⟨rp2, h2, _, _, hmem⟩ :=
            csl_old_members m pn proj rest true
              {st with
                notes := RNote.overwritten m.event_id m.reporter_display_name s :: st.notes,
                render_projects := insertAL st.render_projects (pn ++ '-' :: s)
                  {rp0 with news := m :: rp0.news}}
              (pn ++ '-' :: s) {rp0 with news := m :: rp0.news}
              (lookupAL_insert_self _ _ _)
          exact ⟨rp2, h2, hmem m (List.mem_cons_self _ _)⟩
        · exact ih true _ s hrest hne
      | none =>
        simp only [customSectionLoop, if_pos hs0, hl]
        rcases List.mem_cons.mp hs with he | hrest
        · subst he
          obtain ⟨rp2, h2, _, _, hmem⟩ :=
            csl_old_members m pn proj rest true
              {st with
                notes := RNote.overwritten m.event_id m.reporter_display_name s :: st.notes,
                render_projects := insertAL st.render_projects (pn ++ '-' :: s)
                  ⟨proj, [m], some s⟩}
              (pn ++ '-' :: s) ⟨proj, [m], some s⟩
              (lookupAL_insert_self _ _ _)
          exact ⟨rp2, h2, hmem m (List.mem_cons_self _ _)⟩
        · exact ih true _ s hrest hne
    · simp only [customSectionLoop, if_neg hs0]
      rcases List.mem_cons.mp hs with he | hrest
      · subst he
        exact absurd hne hs0
      · exact ih ov st s hrest hne

theorem csl_self_note (m : News) (pn : Str) (proj : Project) :
    ∀ (sl : List Str) (ov : Bool) (st : RState) (s : Str),
    s ∈ sl → s ≠ proj.default_section →
    RNote.overwritten m.event_id m.reporter_display_name s ∈
      (customSectionLoop m pn proj sl ov st).2.notes := by
  intro sl
  induction sl with
  | nil => intro ov st s hs; simp at hs
  | cons s₀ rest ih =>
    intro ov st s hs hne
    by_cases hs0 : s₀ ≠ proj.default_section
    · cases hl : lookupAL st.render_projects (pn ++ '-' :: s₀) with
      | some rp0 =>
        simp only [customSectionLoop, if_pos hs0, hl]
        rcases List.mem_cons.mp hs with he | hrest
        · subst he
          exact csl_notes_mono m pn proj rest true _ _ (List.mem_cons_self _ _)
        · exact ih true _ s hrest hne
      | none =>
        simp only [customSectionLoop, if_pos hs0, hl]
        rcases List.mem_cons.mp hs with he | hrest
        · subst he
          exact csl_notes_mono m pn proj rest true _ _ (List.mem_cons_self _ _)
        · exact ih true _ s hrest hne
    · simp only [customSectionLoop, if_neg hs0]
      rcases List.mem_cons.mp hs with he | hrest
      · subst he
        exact absurd hne hs0
      · exact ih ov st s hrest hne

theorem csl_flag (m : News) (pn : Str) (proj : Project) :
    ∀ (sl : List Str) (ov : Bool) (st : RState),
    (customSectionLoop m pn proj sl ov st).1 = false →
    ov = false ∧ ∀ s' ∈ sl, s' = proj.default_section := by
  intro sl
  induction sl with
  | nil => intro ov st h; exact ⟨h, by simp⟩
  | cons s₀ rest ih =>
    intro ov st h
    by_cases hs0 : s₀ ≠ proj.default_section
    · cases hl : lookupAL st.render_projects (pn ++ '-' :: s₀) with
      | some rp0 =>
        simp only [customSectionLoop, if_pos hs0, hl] at h
        exact absurd (ih true _ h).1 (by simp)
      | none =>
        simp only [customSectionLoop, if_pos hs0, hl] at h
        exact absurd (ih true _ h).1 (by simp)
    · simp only [customSectionLoop, if_neg hs0] at h
      obtain ⟨h1, h2⟩ := ih ov st h
      refine ⟨h1, fun s' hs' => ?_⟩
      rcases List.mem_cons.mp hs' with he | hrest
      · rw [he]
        exact not_not.mp hs0
      · exact h2 s' hrest

theorem pl_notes_mono (cfg : Config) (m : News) :
    ∀ (pl : List Str) (st st' : RState),
    projectLoop cfg m pl st = some st' →
    ∀ x ∈ st.notes, x ∈ st'.notes := by
  intro pl
  induction pl with
  | nil =>
    intro st st' h x hx
    cases h
    exact hx
  | cons name rest ih =>
    intro st st' h x hx
    simp only [projectLoop] at h
    cases hp : cfg.project_by_name name with
    | none =>
      simp only [hp] at h
      exact absurd h (by simp)
    | some proj =>
      simp only [hp] at h
      rcases hc : customSectionLoop m name proj m.section_names' false
          {st with project_names := insertSet st.project_names name} with ⟨ov, st₂⟩
      simp only [hc] at h
      have hnotes : x ∈ st₂.notes := by
        have := csl_notes_mono m name proj m.section_names' false
          {st with project_names := insertSet st.project_names name} x hx
        rw [hc] at this
        exact this
      cases ov with
      | true =>
        rw [if_pos rfl] at h
        exact ih st₂ st' h x hnotes
      | false =>
        rw [if_neg Bool.false_ne_true] at h
        cases hl : lookupAL st₂.render_projects name with
        | some rp =>
          simp only [hl] at h
          exact ih _ st' h x hnotes
        | none =>
          simp only [hl] at h
          exact ih _ st' h x hnotes

theorem pl_old_members (cfg : Config) (m : News) :
    ∀ (pl : List Str) (st st' : RState),
    projectLoop cfg m pl st = some st' →
    ∀ (k : Str) (rp1 : RenderProject), lookupAL st.render_projects k = some rp1 →
    ∃ rp2, lookupAL st'.render_projects k = some rp2 ∧
      rp2.project = rp1.project ∧ rp2.overwritten_section = rp1.overwritten_section ∧
      ∀ x ∈ rp1.news, x ∈ rp2.news := by
  intro pl
  induction pl with
  | nil =>
    intro st st' h k rp1 h1
    cases h
    exact ⟨rp1, h1, rfl, rfl, fun x hx => hx⟩
  | cons name rest ih =>
    intro st st' h k rp1 h1
    simp only [projectLoop] at h
    cases hp : cfg.project_by_name name with
    | none =>
      simp only [hp] at h
      exact absurd h (by simp)
    | some proj =>
      simp only [hp] at h
      rcases hc : customSectionLoop m name proj m.section_names' false
          {st with project_names := insertSet st.project_names name} with ⟨ov, st₂⟩
      simp only [hc] at h
      obtain ⟨rpm, hm, hmp, hmo, hmn⟩ : ∃ rpm,
          lookupAL st₂.render_projects k = some rpm ∧
          rpm.project = rp1.project ∧ rpm.overwritten_section = rp1.overwritten_section ∧
          ∀ x ∈ rp1.news, x ∈ rpm.news := by
        have := csl_old_members m name proj m.section_names' false
          {st with project_names := insertSet st.project_names name} k rp1 h1
        rw [hc] at this
        exact this
      cases ov with
      | true =>
        rw [if_pos rfl] at h
        obtain ⟨rp2, h2, hp2, ho2, hn2⟩ := ih st₂ st' h k rpm hm
        exact ⟨rp2, h2, hp2.trans hmp, ho2.trans hmo,
          fun x hx => hn2 x (hmn x hx)⟩
      | false =>
        rw [if_neg Bool.false_ne_true] at h
        cases hl : lookupAL st₂.render_projects name with
        | some rp =>
          simp only [hl] at h
          by_cases hk : k = name
          · subst hk
            have hrp : rp = rpm := by
              have := hl.symm.trans hm
              injection this
            subst hrp
            obtain ⟨rp2, h2, hp2, ho2, hn2⟩ := ih _ st' h k
              {rp with news := m :: rp.news} (lookupAL_insert_self _ _ _)
            exact ⟨rp2, h2, hp2.trans hmp, ho2.trans hmo,
              fun x hx => hn2 x (List.mem_cons_of_mem m (hmn x hx))⟩
          · obtain ⟨rp2, h2, hp2, ho2, hn2⟩ := ih _ st' h k rpm (by
              rw [lookupAL_insert_ne _ _ _ _ hk]
              exact hm)
            exact ⟨rp2, h2, hp2.trans hmp, ho2.trans hmo,
              fun x hx => hn2 x (hmn x hx)⟩
        | none =>
          simp only [hl] at h
          by_cases hk : k = name
          · subst hk
            rw [hm] at hl
            exact absurd hl (by simp)
          · obtain ⟨rp2, h2, hp2, ho2, hn2⟩ := ih _ st' h k rpm (by
              rw [lookupAL_insert_ne _ _ _ _ hk]
              exact hm)
            exact ⟨rp2, h2, hp2.trans hmp, ho2.trans hmo,
              fun x hx => hn2 x (hmn x hx)⟩

theorem addKeyFor_cons (cfg : Config) (m : News) (name : Str) (rest : List Str) (k : Str)
    (h : addKeyFor cfg m rest k) : addKeyFor cfg m (name :: rest) k := by
  obtain ⟨p', hp', rest'⟩ := h
  exact ⟨p', List.mem_cons_of_mem _ hp', rest'⟩

theorem createShapeFor_cons (cfg : Config) (m : News) (name : Str) (rest : List Str)
    (k : Str) (rp : RenderProject) (h : createShapeFor cfg m rest k rp) :
    createShapeFor cfg m (name :: rest) k rp := by
  obtain ⟨p', hp', rest'⟩ := h
  exact ⟨p', List.mem_cons_of_mem _ hp', rest'⟩

theorem addKeyFor_head_plain (cfg : Config) (m : News) (name : Str) (rest : List Str)
    (k : Str) (proj : Project) (hk : k = name)
    (hp : cfg.project_by_name name = some proj)
    (hall : ∀ s' ∈ m.section_names', s' = proj.default_section) :
    addKeyFor cfg m (name :: rest) k :=
  ⟨name, List.mem_cons_self _ _, proj, hp, Or.inl ⟨hk, hall⟩⟩

theorem addKeyFor_head_comp (cfg : Config) (m : News) (name : Str) (rest : List Str)
    (k : Str) (proj : Project) (s' : Str) (hs' : s' ∈ m.section_names')
    (hk : k = name ++ '-' :: s') (hne : s' ≠ proj.default_section)
    (hp : cfg.project_by_name name = some proj) :
    addKeyFor cfg m (name :: rest) k :=
  ⟨name, List.mem_cons_self _ _, proj, hp, Or.inr ⟨s', hs', hk, hne⟩⟩

theorem pl_step_none (m : News) (name : Str) (proj : Project) (st₁ : RState)
    (ovb : Bool) (st₂ : RState)
    (hc : customSectionLoop m name proj m.section_names' false st₁ = (ovb, st₂))
    (k : Str) (hmnone : lookupAL st₂.render_projects k = none) :
    lookupAL st₁.render_projects k = none := by
  cases hcase : lookupAL st₁.render_projects k with
  | none => rfl
  | some rp1 =>
    obtain ⟨rpx, hx, _, _, _⟩ :=
      csl_old_members m name proj m.section_names' false st₁ k rp1 hcase
    rw [hc] at hx
    rw [hmnone] at hx
    exact absurd hx (by simp)

theorem pl_step_compose (cfg : Config) (m : News) (name : Str) (rest : List Str)
    (proj : Project) (hp : cfg.project_by_name name = some proj)
    (st₁ : RState) (ovb : Bool) (st₂ : RState)
    (hc : customSectionLoop m name proj m.section_names' false st₁ = (ovb, st₂))
    (k : Str) (rpm rp2 : RenderProject)
    (hm : lookupAL st₂.render_projects k = some rpm)
    (f1 : rp2.project = rpm.project)
    (f2 : rp2.overwritten_section = rpm.overwritten_section)
    (mem2 : ∀ x ∈ rp2.news, x ∈ rpm.news ∨ (x = m ∧ addKeyFor cfg m rest k)) :
    (∃ rp1, lookupAL st₁.render_projects k = some rp1 ∧
      rp2.project = rp1.project ∧ rp2.overwritten_section = rp1.overwritten_section ∧
      ∀ x ∈ rp2.news, x ∈ rp1.news ∨ (x = m ∧ addKeyFor cfg m (name :: rest) k)) ∨
    (lookupAL st₁.render_projects k = none ∧ (∀ x ∈ rp2.news, x = m) ∧
      createShapeFor cfg m (name :: rest) k rp2) := by
  rcases csl_new_entries m name proj m.section_names' false st₁ k rpm
      (by rw [hc]; exact hm) with
    ⟨rp1, h1, g1, g2, mem1⟩ | ⟨h1none, gproj, gall, s', hs', hkk, hne, hov2⟩
  · refine Or.inl ⟨rp1, h1, f1.trans g1, f2.trans g2, ?_⟩
    intro x hx
    rcases mem2 x hx with hx' | ⟨hxm, hkey⟩
    · rcases mem1 x hx' with hx'' | ⟨hxm, s', hs', hkk, hne⟩
      · exact Or.inl hx''
      · exact Or.inr ⟨hxm, addKeyFor_head_comp cfg m name rest k proj s' hs' hkk hne hp⟩
    · exact Or.inr ⟨hxm, addKeyFor_cons cfg m name rest k hkey⟩
  · refine Or.inr ⟨h1none, ?_, ?_⟩
    · intro x hx
      rcases mem2 x hx with hx' | ⟨hxm, _⟩
      · exact gall x hx'
      · exact hxm
    · refine ⟨name, List.mem_cons_self _ _, ?_,
        Or.inr ⟨s', hs', hkk, ?_, ?_⟩⟩
      · rw [f1.trans gproj]
        exact hp
      · rw [f1.trans gproj]
        exact hne
      · rw [f2]
        exact hov2

theorem pl_new_entries (cfg : Config) (m : News) :
    ∀ (pl : List Str) (st st' : RState),
    projectLoop cfg m pl st = some st' →
    ∀ (k : Str) (rp2 : RenderProject), lookupAL st'.render_projects k = some rp2 →
    (∃ rp1, lookupAL st.render_projects k = some rp1 ∧
      rp2.project = rp1.project ∧ rp2.overwritten_section = rp1.overwritten_section ∧
      ∀ x ∈ rp2.news, x ∈ rp1.news ∨ (x = m ∧ addKeyFor cfg m pl k)) ∨
    (lookupAL st.render_projects k = none ∧ (∀ x ∈ rp2.news, x = m) ∧
      createShapeFor cfg m pl k rp2) := by
  intro pl
  induction pl with
  | nil =>
    intro st st' h k rp2 hk2
    cases h
    exact Or.inl ⟨rp2, hk2, rfl, rfl, fun x hx => Or.inl hx⟩
  | cons name rest ih =>
    intro st st' h k rp2 hk2
    simp only [projectLoop] at h
    cases hp : cfg.project_by_name name with
    | none =>
      simp only [hp] at h
      exact absurd h (by simp)
    | some proj =>
      simp only [hp] at h
      rcases hc : customSectionLoop m name proj m.section_names' false
          {st with project_names := insertSet st.project_names name} with ⟨ov, st₂⟩
      simp only [hc] at h
      cases ov with
      | true =>
        rw [if_pos rfl] at h
        rcases ih st₂ st' h k rp2 hk2 with ⟨rpm, hm, f1, f2, mem2⟩ | ⟨hmnone, hallm, shape⟩
        · exact pl_step_compose cfg m name rest proj hp _ true st₂ hc k rpm rp2 hm f1 f2 mem2
        · exact Or.inr ⟨pl_step_none m name proj _ true st₂ hc k hmnone, hallm,
            createShapeFor_cons cfg m name rest k rp2 shape⟩
      | false =>
        rw [if_neg Bool.false_ne_true] at h
        have halldef : ∀ s' ∈ m.section_names', s' = proj.default_section :=
          (csl_flag m name proj m.section_names' false
            {st with project_names := insertSet st.project_names name} (by rw [hc])).2
        cases hl : lookupAL st₂.render_projects name with
        | some rp =>
          simp only [hl] at h
          rcases ih _ st' h k rp2 hk2 with ⟨rpm, hm, f1, f2, mem2⟩ | ⟨hmnone, hallm, shape⟩
          · by_cases hk : k = name
            · subst hk
              rw [lookupAL_insert_self] at hm
              injection hm with hrm
              have mem2' : ∀ x ∈ rp2.news, x ∈ rp.news ∨
                  (x = m ∧ addKeyFor cfg m (k :: rest) k) := by
                intro x hx
                rcases mem2 x hx with hx' | ⟨hxm, hkey⟩
                · rw [← hrm] at hx'
                  rcases List.mem_cons.mp hx' with hxm | hx''
                  · exact Or.inr ⟨hxm,
                      addKeyFor_head_plain cfg m k rest k proj rfl hp halldef⟩
                  · exact Or.inl hx''
                · exact Or.inr ⟨hxm, addKeyFor_cons cfg m k rest k hkey⟩
              have f1' : rp2.project = rp.project := by rw [f1, ← hrm]
              have f2' : rp2.overwritten_section = rp.overwritten_section := by
                rw [f2, ← hrm]
              rcases csl_new_entries m k proj m.section_names' false
                  {st with project_names := insertSet st.project_names k} k rp
                  (by rw [hc]; exact hl) with
                ⟨rp1, h1, g1, g2, mem1⟩ | ⟨h1none, gproj, gall, s', hs', hkk, hne, hov2⟩
              · refine Or.inl ⟨rp1, h1, f1'.trans g1, f2'.trans g2, ?_⟩
                intro x hx
                rcases mem2' x hx with hx' | ⟨hxm, hkey⟩
                · rcases mem1 x hx' with hx'' | ⟨hxm, s', hs', hkk, hne⟩
                  · exact Or.inl hx''
                  · exact Or.inr ⟨hxm,
                      addKeyFor_head_comp cfg m k rest k proj s' hs' hkk hne hp⟩
                · exact Or.inr ⟨hxm, hkey⟩
              · refine Or.inr ⟨h1none, ?_, ?_⟩
                · intro x hx
                  rcases mem2' x hx with hx' | ⟨hxm, _⟩
                  · exact gall x hx'
                  · exact hxm
                · refine ⟨k, List.mem_cons_self _ _, ?_,
                    Or.inr ⟨s', hs', hkk, ?_, ?_⟩⟩
                  · rw [f1'.trans gproj]
                    exact hp
                  · rw [f1'.trans gproj]
                    exact hne
                  · rw [f2']
                    exact hov2
            · rw [lookupAL_insert_ne _ _ _ _ hk] at hm
              exact pl_step_compose cfg m name rest proj hp _ false st₂ hc k rpm rp2 hm f1 f2 mem2
          · by_cases hk : k = name
            · subst hk
              rw [lookupAL_insert_self] at hmnone
              exact absurd hmnone (by simp)
            · rw [lookupAL_insert_ne _ _ _ _ hk] at hmnone
              exact Or.inr ⟨pl_step_none m name proj _ false st₂ hc k hmnone, hallm,
                createShapeFor_cons cfg m name rest k rp2 shape⟩
        | none =>
          simp only [hl] at h
          rcases ih _ st' h k rp2 hk2 with ⟨rpm, hm, f1, f2, mem2⟩ | ⟨hmnone, hallm, shape⟩
          · by_cases hk : k = name
            · subst hk
              rw [lookupAL_insert_self] at hm
              injection hm with hrm
              have h1none : lookupAL st.render_projects k = none :=
                pl_step_none m k proj _ false st₂ hc k hl
              refine Or.inr ⟨h1none, ?_, ?_⟩
              · intro x hx
                rcases mem2 x hx with hx' | ⟨hxm, _⟩
                · rw [← hrm] at hx'
                  exact List.mem_singleton.mp hx'
                · exact hxm
              · refine ⟨k, List.mem_cons_self _ _, ?_, Or.inl ⟨rfl, ?_, ?_⟩⟩
                · rw [show rp2.project = proj from by rw [f1, ← hrm]]
                  exact hp
                · rw [f2, ← hrm]
                · intro s' hs'
                  rw [show rp2.project = proj from by rw [f1, ← hrm]]
                  exact halldef s' hs'
            · rw [lookupAL_insert_ne _ _ _ _ hk] at hm
              exact pl_step_compose cfg m name rest proj hp _ false st₂ hc k rpm rp2 hm f1 f2 mem2
          · by_cases hk : k = name
            · subst hk
              rw [lookupAL_insert_self] at hmnone
              exact absurd hmnone (by simp)
            · rw [lookupAL_insert_ne _ _ _ _ hk] at hmnone
              exact Or.inr ⟨pl_step_none m name proj _ false st₂ hc k hmnone, hallm,
                createShapeFor_cons cfg m name rest k rp2 shape⟩

theorem pl_self (cfg : Config) (m : News) (p s : Str) (proj : Project)
    (hproj : cfg.project_by_name p = some proj)
    (hs : s ∈ m.section_names') (hne : s ≠ proj.default_section) :
    ∀ (pl : List Str) (st st' : RState), p ∈ pl →
    projectLoop cfg m pl st = some st' →
    ∃ rp2, lookupAL st'.render_projects (p ++ '-' :: s) = some rp2 ∧ m ∈ rp2.news := by
  intro pl
  induction pl with
  | nil => intro st st' hmem; simp at hmem
  | cons name rest ih =>
    intro st st' hmem h
    simp only [projectLoop] at h
    cases hp : cfg.project_by_name name with
    | none =>
      simp only [hp] at h
      exact absurd h (by simp)
    | some projx =>
      simp only [hp] at h
      rcases hc : customSectionLoop m name projx m.section_names' false
          {st with project_names := insertSet st.project_names name} with ⟨ov, st₂⟩
      simp only [hc] at h
      rcases List.mem_cons.mp hmem with he | hrest
      · subst he
        have hpx : projx = proj := by
          have h2 := hproj.symm.trans hp
          injection h2 with h2
          exact h2.symm
        have hne' : s ≠ projx.default_section := by
          rw [hpx]
          exact hne
        obtain ⟨rpx, hx, hmx⟩ : ∃ rpx,
            lookupAL st₂.render_projects (p ++ '-' :: s) = some rpx ∧ m ∈ rpx.news := by
          have h3 := csl_self m p projx m.section_names' false
            {st with project_names := insertSet st.project_names p} s hs hne'
          rw [hc] at h3
          exact h3
        cases ov with
        | true =>
          rw [if_pos rfl] at h
          obtain ⟨rp2, h2, _, _, hmem2⟩ := pl_old_members cfg m rest st₂ st' h _ rpx hx
          exact ⟨rp2, h2, hmem2 m hmx⟩
        | false =>
          have halldef := (csl_flag m p projx m.section_names' false
            {st with project_names := insertSet st.project_names p} (by rw [hc])).2
          exact absurd (halldef s hs) hne'
      · cases ov with
        | true =>
          rw [if_pos rfl] at h
          exact ih st₂ st' hrest h
        | false =>
          rw [if_neg Bool.false_ne_true] at h
          cases hl : lookupAL st₂.render_projects name with
          | some rp =>
            simp only [hl] at h
            exact ih _ st' hrest h
          | none =>
            simp only [hl] at h
            exact ih _ st' hrest h

theorem pl_self_note (cfg : Config) (m : News) (p s : Str) (proj : Project)
    (hproj : cfg.project_by_name p = some proj)
    (hs : s ∈ m.section_names') (hne : s ≠ proj.default_section) :
    ∀ (pl : List Str) (st st' : RState), p ∈ pl →
    projectLoop cfg m pl st = some st' →
    RNote.overwritten m.event_id m.reporter_display_name s ∈ st'.notes := by
  intro pl
  induction pl with
  | nil => intro st st' hmem; simp at hmem
  | cons name rest ih =>
    intro st st' hmem h
    simp only [projectLoop] at h
    cases hp : cfg.project_by_name name with
    | none =>
      simp only [hp] at h
      exact absurd h (by simp)
    | some projx =>
      simp only [hp] at h
      rcases hc : customSectionLoop m name projx m.section_names' false
          {st with project_names := insertSet st.project_names name} with ⟨ov, st₂⟩
      simp only [hc] at h
      rcases List.mem_cons.mp hmem with he | hrest
      · subst he
        have hpx : projx = proj := by
          have h2 := hproj.symm.trans hp
          injection h2 with h2
          exact h2.symm
        have hne' : s ≠ projx.default_section := by
          rw [hpx]
          exact hne
        have hnote : RNote.overwritten m.event_id m.reporter_display_name s ∈ st₂.notes := by
          have h3 := csl_self_note m p projx m.section_names' false
            {st with project_names := insertSet st.project_names p} s hs hne'
          rw [hc] at h3
          exact h3
        cases ov with
        | true =>
          rw [if_pos rfl] at h
          exact pl_notes_mono cfg m rest st₂ st' h _ hnote
        | false =>
          have halldef := (csl_flag m p projx m.section_names' false
            {st with project_names := insertSet st.project_names p} (by rw [hc])).2
          exact absurd (halldef s hs) hne'
      · cases ov with
        | true =>
          rw [if_pos rfl] at h
          exact ih st₂ st' hrest h
        | false =>
          rw [if_neg Bool.false_ne_true] at h
          cases hl : lookupAL st₂.render_projects name with
          | some rp =>
            simp only [hl] at h
            exact ih _ st' hrest h
          | none =>
            simp only [hl] at h
            exact ih _ st' hrest h

theorem is_assigned_of_mem_project_names' (m : News) (p : Str)
    (h : p ∈ m.project_names') : m.is_assigned = true := by
  have hne : m.project_names ≠ [] := by
    intro he
    rw [← project_names'_eq_nil_iff] at he
    rw [he] at h
    simp at h
  rw [News.is_assigned]
  cases hn : m.project_names with
  | nil => exact absurd hn hne
  | cons a t => rfl

theorem not_isEmpty_project_names' (m : News) (p : Str)
    (h : p ∈ m.project_names') : m.project_names'.isEmpty = false := by
  cases hn : m.project_names' with
  | nil =>
    rw [hn] at h
    simp at h
  | cons a t => rfl

theorem step_old (cfg : Config) (st : RState) (m : News) (st' : RState)
    (h : processNews cfg st m = some st') :
    (∀ (k : Str) (rp1 : RenderProject), lookupAL st.render_projects k = some rp1 →
      ∃ rp2, lookupAL st'.render_projects k = some rp2 ∧
        rp2.project = rp1.project ∧ rp2.overwritten_section = rp1.overwritten_section ∧
        ∀ x ∈ rp1.news, x ∈ rp2.news) ∧
    (∀ x ∈ st.notes, x ∈ st'.notes) := by
  unfold processNews at h
  cases hass : m.is_assigned with
  | false =>
    simp only [hass, Bool.not_false, if_pos] at h
    cases h
    exact ⟨fun k rp1 h1 => ⟨rp1, h1, rfl, rfl, fun x hx => hx⟩, fun x hx => hx⟩
  | true =>
    simp only [hass, Bool.not_true, Bool.false_eq_true, if_false] at h
    rw [if_neg (fun hc =>
      Bool.false_ne_true ((is_assigned_names' m hass).symm.trans hc))] at h
    by_cases hw : (decide (m.project_names'.length > 1) ||
        decide (m.section_names'.length > 1)) = true
    · rw [if_pos hw] at h
      cases he : m.project_names'.isEmpty with
      | true =>
        simp only [he, if_pos] at h
        obtain ⟨st₃, hd, hp2⟩ := Option.bind_eq_some.mp h
        obtain ⟨_, _, g3, _, _, _, g7, _⟩ := directSectionLoop_fields cfg m _ _ _ hd
        constructor
        · intro k rp1 h1
          exact pl_old_members cfg m m.project_names' st₃ st' hp2 k rp1
            (by rw [g3]; exact h1)
        · intro x hx
          exact pl_notes_mono cfg m m.project_names' st₃ st' hp2 x
            (by rw [g7]; exact List.mem_cons_of_mem _ hx)
      | false =>
        simp only [he, Bool.false_eq_true, if_false, Option.pure_def,
          Option.some_bind] at h
        constructor
        · intro k rp1 h1
          exact pl_old_members cfg m m.project_names' _ st' h k rp1 h1
        · intro x hx
          exact pl_notes_mono cfg m m.project_names' _ st' h x hx
    · rw [if_neg hw] at h
      cases he : m.project_names'.isEmpty with
      | true =>
        simp only [he, if_pos] at h
        obtain ⟨st₃, hd, hp2⟩ := Option.bind_eq_some.mp h
        obtain ⟨_, _, g3, _, _, _, g7, _⟩ := directSectionLoop_fields cfg m _ _ _ hd
        constructor
        · intro k rp1 h1
          exact pl_old_members cfg m m.project_names' st₃ st' hp2 k rp1
            (by rw [g3]; exact h1)
        · intro x hx
          exact pl_notes_mono cfg m m.project_names' st₃ st' hp2 x
            (by rw [g7]; exact List.mem_cons_of_mem _ hx)
      | false =>
        simp only [he, Bool.false_eq_true, if_false, Option.pure_def,
          Option.some_bind] at h
        constructor
        · intro k rp1 h1
          exact pl_old_members cfg m m.project_names' _ st' h k rp1 h1
        · intro x hx
          exact pl_notes_mono cfg m m.project_names' _ st' h x hx

theorem step_new_entries (cfg : Config) (st : RState) (m : News) (st' : RState)
    (h : processNews cfg st m = some st') :
    ∀ (k : Str) (rp2 : RenderProject), lookupAL st'.render_projects k = some rp2 →
    (∃ rp1, lookupAL st.render_projects k = some rp1 ∧
      rp2.project = rp1.project ∧ rp2.overwritten_section = rp1.overwritten_section ∧
      ∀ x ∈ rp2.news, x ∈ rp1.news ∨ (x = m ∧ addKeyFor cfg m m.project_names' k)) ∨
    (lookupAL st.render_projects k = none ∧ (∀ x ∈ rp2.news, x = m) ∧
      createShapeFor cfg m m.project_names' k rp2) := by
  unfold processNews at h
  cases hass : m.is_assigned with
  | false =>
    simp only [hass, Bool.not_false, if_pos] at h
    cases h
    intro k rp2 hk2
    exact Or.inl ⟨rp2, hk2, rfl, rfl, fun x hx => Or.inl hx⟩
  | true =>
    simp only [hass, Bool.not_true, Bool.false_eq_true, if_false] at h
    rw [if_neg (fun hc =>
      Bool.false_ne_true ((is_assigned_names' m hass).symm.trans hc))] at h
    by_cases hw : (decide (m.project_names'.length > 1) ||
        decide (m.section_names'.length > 1)) = true
    · rw [if_pos hw] at h
      cases he : m.project_names'.isEmpty with
      | true =>
        simp only [he, if_pos] at h
        obtain ⟨st₃, hd, hp2⟩ := Option.bind_eq_some.mp h
        obtain ⟨_, _, g3, _, _, _, _, _⟩ := directSectionLoop_fields cfg m _ _ _ hd
        intro k rp2 hk2
        rcases pl_new_entries cfg m m.project_names' st₃ st' hp2 k rp2 hk2 with
          ⟨rpm, hm, f1, f2, mem2⟩ | ⟨hmnone, hallm, shape⟩
        · rw [g3] at hm
          exact Or.inl ⟨rpm, hm, f1, f2, mem2⟩
        · rw [g3] at hmnone
          exact Or.inr ⟨hmnone, hallm, shape⟩
      | false =>
        simp only [he, Bool.false_eq_true, if_false, Option.pure_def,
          Option.some_bind] at h
        intro k rp2 hk2
        exact pl_new_entries cfg m m.project_names' _ st' h k rp2 hk2
    · rw [if_neg hw] at h
      cases he : m.project_names'.isEmpty with
      | true =>
        simp only [he, if_pos] at h
        obtain ⟨st₃, hd, hp2⟩ := Option.bind_eq_some.mp h
        obtain ⟨_, _, g3, _, _, _, _, _⟩ := directSectionLoop_fields cfg m _ _ _ hd
        intro k rp2 hk2
        rcases pl_new_entries cfg m m.project_names' st₃ st' hp2 k rp2 hk2 with
          ⟨rpm, hm, f1, f2, mem2⟩ | ⟨hmnone, hallm, shape⟩
        · rw [g3] at hm
          exact Or.inl ⟨rpm, hm, f1, f2, mem2⟩
        · rw [g3] at hmnone
          exact Or.inr ⟨hmnone, hallm, shape⟩
      | false =>
        simp only [he, Bool.false_eq_true, if_false, Option.pure_def,
          Option.some_bind] at h
        intro k rp2 hk2
        exact pl_new_entries cfg m m.project_names' _ st' h k rp2 hk2

theorem step_self (cfg : Config) (st : RState) (m : News) (st' : RState)
    (p s : Str) (proj : Project)
    (hmemp : p ∈ m.project_names') (hs : s ∈ m.section_names')
    (hproj : cfg.project_by_name p = some proj) (hne : s ≠ proj.default_section)
    (h : processNews cfg st m = some st') :
    (∃ rp2, lookupAL st'.render_projects (p ++ '-' :: s) = some rp2 ∧ m ∈ rp2.news) ∧
    RNote.overwritten m.event_id m.reporter_display_name s ∈ st'.notes := by
  have hass := is_assigned_of_mem_project_names' m p hmemp
  have he := not_isEmpty_project_names' m p hmemp
  unfold processNews at h
  simp only [hass, Bool.not_true, Bool.false_eq_true, if_false] at h
  rw [if_neg (fun hc =>
    Bool.false_ne_true ((is_assigned_names' m hass).symm.trans hc))] at h
  by_cases hw : (decide (m.project_names'.length > 1) ||
      decide (m.section_names'.length > 1)) = true
  · rw [if_pos hw] at h
    simp only [he, Bool.false_eq_true, if_false, Option.pure_def,
      Option.some_bind] at h
    exact ⟨pl_self cfg m p s proj hproj hs hne m.project_names' _ st' hmemp h,
      pl_self_note cfg m p s proj hproj hs hne m.project_names' _ st' hmemp h⟩
  · rw [if_neg hw] at h
    simp only [he, Bool.false_eq_true, if_false, Option.pure_def,
      Option.some_bind] at h
    exact ⟨pl_self cfg m p s proj hproj hs hne m.project_names' _ st' hmemp h,
      pl_self_note cfg m p s proj hproj hs hne m.project_names' _ st' hmemp h⟩

theorem inv_step (cfg : Config) (n : News) (p s : Str) (proj : Project)
    (hproj : cfg.project_by_name p = some proj) (hne : s ≠ proj.default_section)
    (hdp : '-' ∉ p) (hs : s ∈ n.section_names')
    (m : News) (hdf : ∀ q ∈ m.project_names', '-' ∉ q)
    (st st' : RState) (h : processNews cfg st m = some st') :
    ((∀ rp, lookupAL st.render_projects (p ++ '-' :: s) = some rp →
        rp.overwritten_section = some s ∧ rp.project = proj) →
      ∀ rp, lookupAL st'.render_projects (p ++ '-' :: s) = some rp →
        rp.overwritten_section = some s ∧ rp.project = proj) ∧
    ((∀ rp, lookupAL st.render_projects p = some rp → n ∉ rp.news) →
      ∀ rp, lookupAL st'.render_projects p = some rp → n ∉ rp.news) ∧
    ((∃ rp, lookupAL st.render_projects (p ++ '-' :: s) = some rp ∧ n ∈ rp.news) →
      ∃ rp, lookupAL st'.render_projects (p ++ '-' :: s) = some rp ∧ n ∈ rp.news) ∧
    (RNote.overwritten n.event_id n.reporter_display_name s ∈ st.notes →
      RNote.overwritten n.event_id n.reporter_display_name s ∈ st'.notes) := by
  obtain ⟨old1, old2⟩ := step_old cfg st m st' h
  have newe := step_new_entries cfg st m st' h
  refine ⟨?_, ?_, ?_, ?_⟩
  · intro hi4 rp hrp
    rcases newe _ rp hrp with ⟨rp1, h1, f1, f2, _⟩ | ⟨_, _, shape⟩
    · obtain ⟨ho, hpj⟩ := hi4 rp1 h1
      exact ⟨f2.trans ho, f1.trans hpj⟩
    · obtain ⟨p', hp', hpj, hdisj⟩ := shape
      rcases hdisj with ⟨hk, _, _⟩ | ⟨s'', hs'', hk, hne'', hov⟩
      · exact absurd hk (dash_key_ne_plain p s p' (hdf p' hp'))
      · obtain ⟨hpe, hse⟩ := dash_key_inj p s p' s'' hdp (hdf p' hp') hk
        refine ⟨by rw [hov, ← hse], ?_⟩
        have hpj2 : cfg.project_by_name p = some rp.project := by
          rw [hpe]
          exact hpj
        have h2 := hproj.symm.trans hpj2
        injection h2 with h2
        exact h2.symm
  · intro hp2 rp hrp hn_in
    rcases newe p rp hrp with ⟨rp1, h1, _, _, mem⟩ | ⟨_, hall, shape⟩
    · rcases mem n hn_in with hold | ⟨hnm, hkey⟩
      · exact hp2 rp1 h1 hold
      · obtain ⟨p', hp', proj', hpj', hdisj⟩ := hkey
        rcases hdisj with ⟨hk, hall'⟩ | ⟨s'', hs'', hk, _⟩
        · rw [← hk] at hpj'
          have h2 := hproj.symm.trans hpj'
          injection h2 with h2
          rw [← hnm] at hall'
          exact hne ((hall' s hs).trans (by rw [h2]))
        · exact absurd hk.symm (dash_key_ne_plain p' s'' p hdp)
    · have hnm := hall n hn_in
      obtain ⟨p', hp', hpj, hdisj⟩ := shape
      rcases hdisj with ⟨hk, _, hall'⟩ | ⟨s'', hs'', hk, _⟩
      · rw [← hk] at hpj
        have h2 := hproj.symm.trans hpj
        injection h2 with h2
        rw [← hnm] at hall'
        exact hne ((hall' s hs).trans (by rw [h2]))
      · exact absurd hk.symm (dash_key_ne_plain p' s'' p hdp)
  · rintro ⟨rp, hrp, hmem⟩
    obtain ⟨rp2, h2, _, _, hsub⟩ := old1 _ rp hrp
    exact ⟨rp2, h2, hsub n hmem⟩
  · intro h3
    exact old2 _ h3

theorem inv_fold (cfg : Config) (n : News) (p s : Str) (proj : Project)
    (hproj : cfg.project_by_name p = some proj) (hne : s ≠ proj.default_section)
    (hdp : '-' ∉ p) (hs : s ∈ n.section_names')
    (l : List News) (hdf : ∀ m ∈ l, ∀ q ∈ m.project_names', '-' ∉ q)
    (st st' : RState) (h : l.foldlM (processNews cfg) st = some st') :
    ((∀ rp, lookupAL st.render_projects (p ++ '-' :: s) = some rp →
        rp.overwritten_section = some s ∧ rp.project = proj) →
      ∀ rp, lookupAL st'.render_projects (p ++ '-' :: s) = some rp →
        rp.overwritten_section = some s ∧ rp.project = proj) ∧
    ((∀ rp, lookupAL st.render_projects p = some rp → n ∉ rp.news) →
      ∀ rp, lookupAL st'.render_projects p = some rp → n ∉ rp.news) ∧
    ((∃ rp, lookupAL st.render_projects (p ++ '-' :: s) = some rp ∧ n ∈ rp.news) →
      ∃ rp, lookupAL st'.render_projects (p ++ '-' :: s) = some rp ∧ n ∈ rp.news) ∧
    (RNote.overwritten n.event_id n.reporter_display_name s ∈ st.notes →
      RNote.overwritten n.event_id n.reporter_display_name s ∈ st'.notes) := by
  induction l generalizing st with
  | nil =>
    simp only [List.foldlM_nil, Option.pure_def] at h
    cases h
    exact ⟨fun hi => hi, fun hi => hi, fun hi => hi, fun hi => hi⟩
  | cons m t ih =>
    simp only [List.foldlM_cons] at h
    obtain ⟨st₁, h1, h2⟩ := Option.bind_eq_some.mp h
    have hstep := inv_step cfg n p s proj hproj hne hdp hs m
      (hdf m (List.mem_cons_self m t)) st st₁ h1
    have hrest := ih (fun q hq => hdf q (List.mem_cons_of_mem m hq)) st₁ h2
    exact ⟨fun hi => hrest.1 (hstep.1 hi),
      fun hi => hrest.2.1 (hstep.2.1 hi),
      fun hi => hrest.2.2.1 (hstep.2.2.1 hi),
      fun hi => hrest.2.2.2 (hstep.2.2.2 hi)⟩

theorem lookupAL_mem {α β : Type} [DecidableEq α] (l : List (α × β)) (k : α) (v : β)
    (h : lookupAL l k = some v) : (k, v) ∈ l := by
  induction l with
  | nil => exact absurd h (by simp [lookupAL])
  | cons hd t ih =>
    obtain ⟨a, b⟩ := hd
    by_cases ha : a = k
    · subst ha
      rw [lookupAL, if_pos rfl] at h
      injection h with h
      subst h
      exact List.mem_cons_self _ _
    · rw [lookupAL, if_neg ha] at h
      exact List.mem_cons_of_mem _ (ih h)

theorem self_mem_insortKey {β : Type} (x : Str × β) (l : List (Str × β)) :
    x ∈ insortKey x l := by
  induction l with
  | nil => exact List.mem_cons_self _ _
  | cons hd t ih =>
    rw [insortKey]
    by_cases hc : strLe x.1 hd.1 = true
    · rw [if_pos hc]
      exact List.mem_cons_self _ _
    · rw [if_neg hc]
      exact List.mem_cons_of_mem _ ih

theorem mem_insortKey {β : Type} (x y : Str × β) (l : List (Str × β))
    (h : x ∈ l) : x ∈ insortKey y l := by
  induction l with
  | nil => exact absurd h (List.not_mem_nil x)
  | cons hd t ih =>
    rw [insortKey]
    by_cases hc : strLe y.1 hd.1 = true
    · rw [if_pos hc]
      exact List.mem_cons_of_mem _ h
    · rw [if_neg hc]
      rcases List.mem_cons.mp h with he | ht
      · rw [he]
        exact List.mem_cons_self _ _
      · exact List.mem_cons_of_mem _ (ih ht)

theorem mem_sortByKey {β : Type} (x : Str × β) (l : List (Str × β))
    (h : x ∈ l) : x ∈ sortByKey l := by
  induction l with
  | nil => exact absurd h (List.not_mem_nil x)
  | cons hd t ih =>
    rw [sortByKey]
    rcases List.mem_cons.mp h with he | ht
    · rw [he]
      exact self_mem_insortKey _ _
    · exact mem_insortKey _ _ _ (ih ht)

theorem place_mono (cfg : Config) (l : List (Str × RenderProject)) :
    ∀ (sections sections' : List ((Nat × Str) × RenderSection)),
      placeLoop cfg l sections = some sections' →
      ∀ (key : Nat × Str) (rs : RenderSection), lookupAL sections key = some rs →
      ∃ rs', lookupAL sections' key = some rs' ∧ ∀ x ∈ rs.projects, x ∈ rs'.projects := by
  induction l with
  | nil =>
    intro sections sections' h key rs hk
    rw [placeLoop] at h
    injection h with h
    subst h
    exact ⟨rs, hk, fun x hx => hx⟩
  | cons hd t ih =>
    intro sections sections' h key rs hk
    obtain ⟨k0, rp0⟩ := hd
    cases hov : rp0.overwritten_section with
    | some s0 =>
      simp only [placeLoop, hov] at h
      cases hsec : cfg.section_by_name s0 with
      | none =>
        simp only [hsec] at h
        exact Option.noConfusion h
      | some sec =>
        simp only [hsec] at h
        by_cases hkey : key = (sec.order, s0)
        · subst hkey
          cases hl : lookupAL sections (sec.order, s0) with
          | none =>
            rw [hl] at hk
            exact Option.noConfusion hk
          | some rs1 =>
            simp only [hl] at h
            rw [hl] at hk
            injection hk with hk
            subst hk
            obtain ⟨rs', h1, h2⟩ := ih _ _ h (sec.order, s0) _ (lookupAL_insert_self _ _ _)
            exact ⟨rs', h1, fun x hx => h2 x (List.mem_cons_of_mem _ hx)⟩
        · cases hl : lookupAL sections (sec.order, s0) with
          | none =>
            simp only [hl] at h
            exact ih _ _ h key rs (by rw [lookupAL_insert_ne _ _ _ _ hkey]; exact hk)
          | some rs1 =>
            simp only [hl] at h
            exact ih _ _ h key rs (by rw [lookupAL_insert_ne _ _ _ _ hkey]; exact hk)
    | none =>
      simp only [placeLoop, hov] at h
      cases hsec : cfg.section_by_name rp0.project.default_section with
      | none =>
        simp only [hsec] at h
        exact Option.noConfusion h
      | some sec =>
        simp only [hsec] at h
        by_cases hkey : key = (sec.order, rp0.project.default_section)
        · subst hkey
          cases hl : lookupAL sections (sec.order, rp0.project.default_section) with
          | none =>
            rw [hl] at hk
            exact Option.noConfusion hk
          | some rs1 =>
            simp only [hl] at h
            rw [hl] at hk
            injection hk with hk
            subst hk
            obtain ⟨rs', h1, h2⟩ :=
              ih _ _ h (sec.order, rp0.project.default_section) _ (lookupAL_insert_self _ _ _)
            exact ⟨rs', h1, fun x hx => h2 x (List.mem_cons_of_mem _ hx)⟩
        · cases hl : lookupAL sections (sec.order, rp0.project.default_section) with
          | none =>
            simp only [hl] at h
            exact ih _ _ h key rs (by rw [lookupAL_insert_ne _ _ _ _ hkey]; exact hk)
          | some rs1 =>
            simp only [hl] at h
            exact ih _ _ h key rs (by rw [lookupAL_insert_ne _ _ _ _ hkey]; exact hk)

theorem place_self (cfg : Config) (l : List (Str × RenderProject)) :
    ∀ (sections sections' : List ((Nat × Str) × RenderSection)),
      placeLoop cfg l sections = some sections' →
      ∀ (k : Str) (rp : RenderProject), (k, rp) ∈ l →
      ∀ (s : Str), rp.overwritten_section = some s →
      ∀ (sec : Section), cfg.section_by_name s = some sec →
      ∃ rs, lookupAL sections' (sec.order, s) = some rs ∧ rp ∈ rs.projects := by
  induction l with
  | nil =>
    intro _ _ _ k rp hmem
    exact absurd hmem (List.not_mem_nil _)
  | cons hd t ih =>
    intro sections sections' h k rp hmem s hov sec hsec
    obtain ⟨k0, rp0⟩ := hd
    rcases List.mem_cons.mp hmem with he | ht
    · rw [Prod.mk.injEq] at he
      obtain ⟨rfl, rfl⟩ := he
      simp only [placeLoop, hov] at h
      simp only [hsec] at h
      cases hl : lookupAL sections (sec.order, s) with
      | none =>
        simp only [hl] at h
        obtain ⟨rs', h1, h2⟩ :=
          place_mono cfg t _ _ h (sec.order, s) _ (lookupAL_insert_self _ _ _)
        exact ⟨rs', h1, h2 rp (List.mem_cons_self _ _)⟩
      | some rs1 =>
        simp only [hl] at h
        obtain ⟨rs', h1, h2⟩ :=
          place_mono cfg t _ _ h (sec.order, s) _ (lookupAL_insert_self _ _ _)
        exact ⟨rs', h1, h2 rp (List.mem_cons_self _ _)⟩
    · cases hov0 : rp0.overwritten_section with
      | some s0 =>
        simp only [placeLoop, hov0] at h
        cases hsec0 : cfg.section_by_name s0 with
        | none =>
          simp only [hsec0] at h
          exact Option.noConfusion h
        | some sec0 =>
          simp only [hsec0] at h
          cases hl0 : lookupAL sections (sec0.order, s0) with
          | none =>
            simp only [hl0] at h
            exact ih _ _ h k rp ht s hov sec hsec
          | some rs1 =>
            simp only [hl0] at h
            exact ih _ _ h k rp ht s hov sec hsec
      | none =>
        simp only [placeLoop, hov0] at h
        cases hsec0 : cfg.section_by_name rp0.project.default_section with
        | none =>
          simp only [hsec0] at h
          exact Option.noConfusion h
        | some sec0 =>
          simp only [hsec0] at h
          cases hl0 : lookupAL sections (sec0.order, rp0.project.default_section) with
          | none =>
            simp only [hl0] at h
            exact ih _ _ h k rp ht s hov sec hsec
          | some rs1 =>
            simp only [hl0] at h
            exact ih _ _ h k rp ht s hov sec hsec

/-- C6 (corrected): counterexample to the unrestricted claim. In cfg6 the
project x-y has default section u; newsB6 carries project tag x-y and section
tag z with z configured at order 2 and z different from u; yet rendering
[newsA6, newsB6] leaves the section slot (2, z) empty and files newsB6 into
the group at the colliding composite key x-y-z, a group whose project is x
(not x-y) and whose overwriting section is y-z (not z): the dash-built
composite key of project x with section y-z collides with that of project
x-y with section z. -/
theorem render_grouping_counterexample :
    cfg6.project_by_name ['x', '-', 'y'] = some projXY6 ∧
    (['x', '-', 'y'] : Str) ∈ newsB6.project_names' ∧
    (['z'] : Str) ∈ newsB6.section_names' ∧
    (['z'] : Str) ≠ projXY6.default_section ∧
    cfg6.section_by_name ['z'] = some secZ6 ∧
    secZ6.order = 2 ∧
    (render cfg6 [newsA6, newsB6]).map
        (fun res => (lookupAL res.render_sections (2, ['z']),
          lookupAL res.render_projects ['x', '-', 'y', '-', 'z'])) =
      some (none, some ⟨projX6, [newsB6, newsA6], some ['y', '-', 'z']⟩) := by
  decide

/-- C6 (amended): when no configured project name or relevant name contains a
dash - the composite grouping keys are then unambiguous - an assigned news
entry carrying a project tag p resolving to project proj and a section tag s
different from proj's default section is filed by render under the synthetic
project-under-custom-section group at key p-s, whose project is proj and
whose overwritten section is s; it is not filed under the plain project-p
group; a note explaining the override is emitted; and the synthetic group is
placed in the render section of s (at s's configured order), so the entry is
never silently rendered under the default section. -/
theorem render_project_custom_section (cfg : Config) (l : List News) (res : RenderData)
    (hres : render cfg l = some res)
    (n : News) (hn : n ∈ l) (p : Str) (hp : p ∈ n.project_names')
    (s : Str) (hs : s ∈ n.section_names')
    (proj : Project) (hproj : cfg.project_by_name p = some proj)
    (hne : s ≠ proj.default_section)
    (sec : Section) (hsec : cfg.section_by_name s = some sec)
    (hdf : ∀ m ∈ l, ∀ q ∈ m.project_names', '-' ∉ q) :
    (∃ rp, lookupAL res.render_projects (p ++ '-' :: s) = some rp ∧
      n ∈ rp.news ∧ rp.project = proj ∧ rp.overwritten_section = some s) ∧
    (∀ rp, lookupAL res.render_projects p = some rp → n ∉ rp.news) ∧
    RNote.overwritten n.event_id n.reporter_display_name s ∈ res.notes ∧
    (∃ rs, lookupAL res.render_sections (sec.order, s) = some rs ∧
      ∃ rp, rp ∈ rs.projects ∧ n ∈ rp.news ∧ rp.project = proj ∧
        rp.overwritten_section = some s) := by
  have hdp : '-' ∉ p := hdf n hn p hp
  simp only [render] at hres
  obtain ⟨st, hst, hres1⟩ := Option.bind_eq_some.mp hres
  obtain ⟨sections, hplace, hres2⟩ := Option.bind_eq_some.mp hres1
  injection hres2 with hres2
  subst hres2
  obtain ⟨l1, l2, rfl⟩ := List.append_of_mem hn
  rw [List.foldlM_append] at hst
  obtain ⟨st1, h1, h2⟩ := Option.bind_eq_some.mp hst
  rw [List.foldlM_cons] at h2
  obtain ⟨st2, hn2, h3⟩ := Option.bind_eq_some.mp h2
  have hinv1 := inv_fold cfg n p s proj hproj hne hdp hs l1
    (fun m hm => hdf m (List.mem_append_left _ hm)) initRState st1 h1
  have hI4_1 := hinv1.1 (fun rp hrp => absurd hrp (by simp [initRState, lookupAL]))
  have hP2_1 := hinv1.2.1 (fun rp hrp _ => absurd hrp (by simp [initRState, lookupAL]))
  have hstep := inv_step cfg n p s proj hproj hne hdp hs n (hdf n hn) st1 st2 hn2
  have hself := step_self cfg st1 n st2 p s proj hp hs hproj hne hn2
  have hinv2 := inv_fold cfg n p s proj hproj hne hdp hs l2
    (fun m hm => hdf m (List.mem_append_right _ (List.mem_cons_of_mem _ hm))) st2 st h3
  have hI4 := hinv2.1 (hstep.1 hI4_1)
  have hP2 := hinv2.2.1 (hstep.2.1 hP2_1)
  have hP1 := hinv2.2.2.1 hself.1
  have hP3 := hinv2.2.2.2 hself.2
  obtain ⟨rp, hrp, hmem⟩ := hP1
  obtain ⟨hov, hpj⟩ := hI4 rp hrp
  refine ⟨⟨rp, hrp, hmem, hpj, hov⟩, hP2, ?_, ?_⟩
  · exact List.mem_reverse.mpr (List.mem_cons_of_mem _ hP3)
  · obtain ⟨rs, hrs, hin⟩ := place_self cfg (sortByKey st.render_projects)
      st.render_sections sections hplace (p ++ '-' :: s) rp
      (mem_sortByKey _ _ (lookupAL_mem _ _ _ hrp)) s hov sec hsec
    exact ⟨rs, hrs, rp, hin, hmem, hpj, hov⟩

/-- Witness for C6 at a concrete dash-free input: rendering [newsW6] under
cfg6 files newsW6 in the synthetic group at key x-z (project x, overwriting
section z), not under the plain x group, emits the override note, and places
the group in the z section at order 2. -/
theorem render_project_custom_section_witness :
    ∃ res, render cfg6 [newsW6] = some res ∧
      (∃ rp, lookupAL res.render_projects (['x'] ++ '-' :: ['z']) = some rp ∧
        newsW6 ∈ rp.news ∧ rp.project = projX6 ∧ rp.overwritten_section = some ['z']) ∧
      (∀ rp, lookupAL res.render_projects ['x'] = some rp → newsW6 ∉ rp.news) ∧
      RNote.overwritten newsW6.event_id newsW6.reporter_display_name ['z'] ∈ res.notes ∧
      (∃ rs, lookupAL res.render_sections (secZ6.order, ['z']) = some rs ∧
        ∃ rp, rp ∈ rs.projects ∧ newsW6 ∈ rp.news ∧ rp.project = projX6 ∧
          rp.overwritten_section = some ['z']) := by
  obtain ⟨res, hres⟩ : ∃ res, render cfg6 [newsW6] = some res := ⟨_, rfl⟩
  exact ⟨res, hres,
    render_project_custom_section cfg6 [newsW6] res hres newsW6 (by decide)
      ['x'] (by decide) ['z'] (by decide) projX6 (by decide) (by decide)
      secZ6 (by decide) (by decide)⟩
